import Mathlib

/-!
Verification of the best-response computation in
`gamegym/algorithms/bestresponse.py`.

The game tree, the forward walker `trace`, the information-set solver
`traverse` and the orchestration wrappers `BestResponse` / `exploitability`
are embedded shallowly: machine floats become `ℚ`, the mutable `nodes`
counter and the mutable `supports` dictionary become explicitly threaded
state, Python exceptions become `Except` errors, and the unbounded Python
recursion becomes structural recursion on an explicit fuel argument (a run
that returns anything other than `outOfFuel` is unaffected by the fuel).
-/

namespace GameGym

/-- Game tree node, the shallow embedding of a gamegym `Situation`: a
terminal node carries the payoff vector, a chance node carries
`(action, chanceProbability, successor)` triples, and a decision node
carries the acting player, the observation key the adapter computes for
the responding player, and `(action, successor)` pairs. -/
inductive Node where
  | terminal (payoff : List ℚ)
  | chance (children : List (ℕ × ℚ × Node))
  | decision (p : ℕ) (obs : ℕ) (children : List (ℕ × Node))

/-- Strategy abstraction: `get_policy(situation)` returns a distribution,
modelled as a list of `(action, probability)` pairs. -/
abbrev Strat := Node → List (ℕ × ℚ)

/-- SupportItem namedtuple `(situation, probability)` from the source. -/
abbrev SupportItem := Node × ℚ

/-- Insertion-ordered dictionary mapping an information-set key to its
reach items, the `supports` dict of the source. -/
abbrev Supports := List (ℕ × List SupportItem)

/-- Insertion-ordered dictionary mapping an information-set key to an
action distribution, the `best_responses` dict of the source. -/
abbrev Policy := List (ℕ × List ℚ)

/-- Failures of the traversal itself: the `LimitExceeded` exception, fuel
exhaustion (an artifact of the embedding), an action played on a state that
does not offer it (the external game model would raise), a strategy index
out of range (Python `IndexError`), and an empty group or empty action list
(Python `IndexError` on `support[0]` / numpy error on `values.max()`). -/
inductive TravErr where
  | limitExceeded
  | outOfFuel
  | invalidAction
  | badPlayer
  | emptySupport
  | noActions
deriving DecidableEq

/-- Failures of the public entry points: a violated precondition assert, or
a traversal failure. -/
inductive Err where
  | precondition
  | trav (e : TravErr)
deriving DecidableEq

/-- Fixed data of one `BestResponse` computation: the responding player,
`game.players`, the opponents' strategies and the node budget. -/
structure Ctx where
  player : ℕ
  players : ℕ
  strategies : List Strat
  maxNodes : ℕ

/-- Successor function `game.play(situation, action)`; `none` when the
state does not offer the action. -/
def play : Node → ℕ → Option Node
  | .terminal _, _ => none
  | .chance cs, a => (cs.find? fun c => c.1 == a).map fun c => c.2.2
  | .decision _ _ cs, a => (cs.find? fun c => c.1 == a).map fun c => c.2

/-- Legal action list `situation.actions`. -/
def actionsOf : Node → List ℕ
  | .terminal _ => []
  | .chance cs => cs.map fun c => c.1
  | .decision _ _ cs => cs.map fun c => c.1

/-- Items of `Distribution(situation.actions, situation.chance)`. -/
def chanceDist (cs : List (ℕ × ℚ × Node)) : List (ℕ × ℚ) :=
  cs.map fun c => (c.1, c.2.1)

/-- Effect of `supports.setdefault(pi, list()).append(item)`: append the
item to the key's list, creating the key at the end on first use. -/
def addSupport (σ : Supports) (k : ℕ) (it : SupportItem) : Supports :=
  if σ.any fun e => e.1 == k then
    σ.map fun e => if e.1 == k then (e.1, e.2 ++ [it]) else e
  else σ ++ [(k, [it])]

/-- Single-key dict assignment `d[k] = v`: overwrite in place, or append
the key at the end when absent. -/
def polInsert (pol : Policy) (k : ℕ) (d : List ℚ) : Policy :=
  if pol.any fun e => e.1 == k then
    pol.map fun e => if e.1 == k then (e.1, d) else e
  else pol ++ [(k, d)]

/-- Python `dict.update`: assign every key of `other` in order. -/
def polUpdate (pol other : Policy) : Policy :=
  other.foldl (fun acc e => polInsert acc e.1 e.2) pol

/-- Lookup in a policy dictionary. -/
def polGet (pol : Policy) (k : ℕ) : Option (List ℚ) :=
  (pol.find? fun e => e.1 == k).map fun e => e.2

/-- numpy `values.max()`; `none` on an empty array (numpy raises). -/
def maxQ : List ℚ → Option ℚ
  | [] => none
  | v :: rest => some (rest.foldl max v)

/-- Relative tie tolerance, the literal `0e-6` of the source. -/
def tieEps : ℚ := 0

/-- Vector comparison `is_best = values >= (mx - mx * 0e-6)`. -/
def isBest (values : List ℚ) (mx : ℚ) : List Bool :=
  values.map fun v => decide (mx - mx * tieEps ≤ v)

/-- Indicator vector `bdist = is_best.astype(float)`. -/
def bdistOf (values : List ℚ) (mx : ℚ) : List ℚ :=
  (isBest values mx).map fun b => if b then (1 : ℚ) else 0

/-- Distribution `bdist / sum(bdist)` built from `is_best`. -/
def bestDist (values : List ℚ) (mx : ℚ) : List ℚ :=
  (bdistOf values mx).map fun x => x / (bdistOf values mx).sum

mutual
/-- Forward walker `trace(situation, probability, supports)` of the source:
bump the shared node counter and fail when it exceeds `max_nodes`; return 0
on probability zero; record a support item and return 0 at a
responding-player decision; return `payoff[player] * probability` at a
terminal; otherwise recurse over the chance distribution or the acting
opponent's policy distribution and sum. -/
def trace (T : Ctx) : ℕ → Node → ℚ → Supports → ℕ →
    Except TravErr (ℚ × Supports × ℕ)
  | 0, _, _, _, _ => .error .outOfFuel
  | fu+1, s, prob, σ, n =>
    if T.maxNodes < n + 1 then .error .limitExceeded
    else if prob = 0 then .ok (0, σ, n + 1)
    else
      match s with
      | .decision p obs _ =>
        if p = T.player then .ok (0, addSupport σ obs (s, prob), n + 1)
        else
          match T.strategies.get? p with
          | none => .error .badPlayer
          | some st => traceDist T fu s (st s) prob σ (n + 1)
      | .terminal payoff => .ok (payoff.getD T.player 0 * prob, σ, n + 1)
      | .chance cs => traceDist T fu s (chanceDist cs) prob σ (n + 1)
termination_by structural fu => fu

/-- The generator sum
`sum(trace(play(situation, action), pr * probability, supports) for action, pr in dist.items())`
threading the shared state left to right. -/
def traceDist (T : Ctx) : ℕ → Node → List (ℕ × ℚ) → ℚ → Supports → ℕ →
    Except TravErr (ℚ × Supports × ℕ)
  | 0, _, _, _, _, _ => .error .outOfFuel
  | _+1, _, [], _, σ, n => .ok (0, σ, n)
  | fu+1, s, (a, pr) :: rest, prob, σ, n =>
    match play s a with
    | none => .error .invalidAction
    | some s2 =>
      match trace T fu s2 (pr * prob) σ n with
      | .error e => .error e
      | .ok (v, σ1, n1) =>
        match traceDist T fu s rest prob σ1 n1 with
        | .error e => .error e
        | .ok (v2, σ2, n2) => .ok (v + v2, σ2, n2)
termination_by structural fu => fu

/-- Inner loop of `traverse`:
`for s in support: value += trace(self.game.play(s.situation, action), s.probability, new_supports)`. -/
def traceSupport (T : Ctx) : ℕ → List SupportItem → ℕ → Supports → ℕ →
    Except TravErr (ℚ × Supports × ℕ)
  | 0, _, _, _, _ => .error .outOfFuel
  | _+1, [], _, σ, n => .ok (0, σ, n)
  | fu+1, it :: rest, a, σ, n =>
    match play it.1 a with
    | none => .error .invalidAction
    | some s2 =>
      match trace T fu s2 it.2 σ n with
      | .error e => .error e
      | .ok (v, σ1, n1) =>
        match traceSupport T fu rest a σ1 n1 with
        | .error e => .error e
        | .ok (v2, σ2, n2) => .ok (v + v2, σ2, n2)
termination_by structural fu => fu

/-- Solver `traverse(iset, support)` of the source: evaluate every action
of `support[0].situation.actions`, take the maximum value, mark the
actions within the `0e-6` relative tolerance of the maximum as best, map
the information set to the normalized best-action indicator vector, merge
the sub-policies of the best actions on top, and return the maximum. -/
def traverse (T : Ctx) : ℕ → ℕ → List SupportItem → ℕ →
    Except TravErr ((ℚ × Policy) × ℕ)
  | 0, _, _, _ => .error .outOfFuel
  | fu+1, iset, support, n =>
    match support with
    | [] => .error .emptySupport
    | s0 :: _ =>
      match evalActions T fu support (actionsOf s0.1) n with
      | .error e => .error e
      | .ok ((values, brList), n1) =>
        match maxQ values with
        | none => .error .noActions
        | some mx =>
          let brInit := polInsert ([] : Policy) iset (bestDist values mx)
          let brRes := (brList.zip (isBest values mx)).foldl
            (fun acc e => if e.2 then polUpdate acc e.1 else acc) brInit
          .ok ((mx, brRes), n1)
termination_by structural fu => fu

/-- Per-action loop of `traverse`: for each action, walk every support item
into a fresh `new_supports`, recursively solve each discovered group, and
collect the action's total value and merged sub-policy. -/
def evalActions (T : Ctx) : ℕ → List SupportItem → List ℕ → ℕ →
    Except TravErr ((List ℚ × List Policy) × ℕ)
  | 0, _, _, _ => .error .outOfFuel
  | _+1, _, [], n => .ok (([], []), n)
  | fu+1, support, a :: rest, n =>
    match traceSupport T fu support a [] n with
    | .error e => .error e
    | .ok (v1, σ, n1) =>
      match solveGroups T fu σ [] n1 with
      | .error e => .error e
      | .ok ((v2, br), n2) =>
        match evalActions T fu support rest n2 with
        | .error e => .error e
        | .ok ((vs, brs), n3) => .ok (((v1 + v2) :: vs, br :: brs), n3)
termination_by structural fu => fu

/-- Group loop
`for iset2, s in new_supports.items(): v, br = traverse(iset2, s); value += v; best_responses.update(br)`
used both inside `evalActions` and at top level. -/
def solveGroups (T : Ctx) : ℕ → Supports → Policy → ℕ →
    Except TravErr ((ℚ × Policy) × ℕ)
  | 0, _, _, _ => .error .outOfFuel
  | _+1, [], acc, n => .ok ((0, acc), n)
  | fu+1, (k, items) :: rest, acc, n =>
    match traverse T fu k items n with
    | .error e => .error e
    | .ok ((v, br), n1) =>
      match solveGroups T fu rest (polUpdate acc br) n1 with
      | .error e => .error e
      | .ok ((v2, acc2), n2) => .ok ((v + v2, acc2), n2)
termination_by structural fu => fu
end

/-- Body of `BestResponse.__init__` after the asserts: walk the start state
with reach probability 1, then solve every collected root group, summing
the values and merging the policies. Returns the best-response value, the
policy, and the final node count. -/
def bestResponse (T : Ctx) (fu : ℕ) (g : Node) :
    Except TravErr (ℚ × Policy × ℕ) :=
  match trace T fu g 1 [] 0 with
  | .error e => .error e
  | .ok (v, σ, n1) =>
    match solveGroups T fu σ [] n1 with
    | .error e => .error e
    | .ok ((v2, br), n2) => .ok (v + v2, br, n2)

/-- Constructor `BestResponse(game, player, strategies, max_nodes)`
including the two precondition asserts. The player argument is an integer
as in Python, so that a negative index is representable. -/
def bestResponseChecked (players : ℕ) (player : ℤ) (strategies : List Strat)
    (maxNodes fu : ℕ) (g : Node) : Except Err (ℚ × Policy × ℕ) :=
  if player < (players : ℤ) ∧ 0 ≤ player then
    if strategies.length = players then
      (bestResponse ⟨player.toNat, players, strategies, maxNodes⟩ fu g).mapError .trav
    else .error .precondition
  else .error .precondition

/-- Function `exploitability(game, measured_player, strategy)`: assert
`measured_player in (0, 1)` and `game.players == 2`, then return the value
of the exact best response of the other player against the tested strategy
used in both seats. -/
def exploitability (players : ℕ) (g : Node) (measuredPlayer : ℕ)
    (strategy : Strat) (maxNodes fu : ℕ) : Except Err ℚ :=
  if measuredPlayer = 0 ∨ measuredPlayer = 1 then
    if players = 2 then
      (bestResponseChecked players (1 - (measuredPlayer : ℤ)) [strategy, strategy]
        maxNodes fu g).map fun r => r.1
    else .error .precondition
  else .error .precondition

/-! Concrete material used by witnesses: matching pennies with the
responding player 0 moving second, against the uniform opponent. -/

/-- Strategy stub for the ignored slot of the responding player. -/
def stEmpty : Strat := fun _ => []

/-- Uniform opponent strategy over the two actions 0 and 1. -/
def stUnif01 : Strat := fun _ => [(0, 1/2), (1, 1/2)]

/-- Responding-player node after the opponent played heads. -/
def pennies0 : Node :=
  .decision 0 5 [(0, .terminal [1, -1]), (1, .terminal [-1, 1])]

/-- Responding-player node after the opponent played tails. -/
def pennies1 : Node :=
  .decision 0 5 [(0, .terminal [-1, 1]), (1, .terminal [1, -1])]

/-- Matching pennies: the opponent (player 1) moves first, then the
responding player 0 moves without observing the move (both nodes share
observation key 5). -/
def penniesRoot : Node := .decision 1 9 [(0, pennies0), (1, pennies1)]

/-- Context of the matching-pennies best response of player 0. -/
def penniesCtx : Ctx := ⟨0, 2, [stEmpty, stUnif01], 100⟩

/-! Claim C5. -/

/-- C5: a walker invocation with reach probability 0 that stays within the
node budget returns 0 immediately: for every state, the value is 0, the
support sink is untouched, and the counter advances by exactly one, so no
successor of the state is ever entered and an arbitrarily malformed or
infinite subtree cannot affect the computed value. -/
theorem trace_zero_prob_prunes (T : Ctx) (fu : ℕ) (s : Node) (σ : Supports)
    (n : ℕ) (hb : n + 1 ≤ T.maxNodes) :
    trace T (fu + 1) s 0 σ n = .ok (0, σ, n + 1) := by
  unfold trace
  rw [if_neg (by omega), if_pos rfl]

/-- C5 witness: a probability-zero call on a chance node returns 0 without
entering the subtree. -/
theorem trace_zero_prob_prunes_witness :
    trace ⟨0, 2, [], 7⟩ 1 (.chance [(0, 1, .terminal [5, 5])]) 0 [] 0
      = .ok (0, [], 1) :=
  trace_zero_prob_prunes ⟨0, 2, [], 7⟩ 0 (.chance [(0, 1, .terminal [5, 5])]) [] 0
    (by decide)

/-! Claim C10. -/

/-- C10: a walker invocation with reach probability 0 consumes one unit of
the shared budget before the zero-probability check: when the counter has
already reached the budget the call itself raises LimitExceeded, and
otherwise it returns with the counter advanced by exactly one. -/
theorem trace_zero_prob_counts_budget (T : Ctx) (fu : ℕ) (s : Node)
    (σ : Supports) (n : ℕ) :
    (T.maxNodes ≤ n → trace T (fu + 1) s 0 σ n = .error .limitExceeded) ∧
    (n < T.maxNodes → trace T (fu + 1) s 0 σ n = .ok (0, σ, n + 1)) := by
  constructor
  · intro h; unfold trace; rw [if_pos (by omega)]
  · intro h; unfold trace; rw [if_neg (by omega), if_pos rfl]

/-- C10 witness: with the counter at the budget, a probability-zero call
raises LimitExceeded; one step earlier it succeeds and consumes the last
unit. -/
theorem trace_zero_prob_counts_budget_witness :
    trace ⟨0, 2, [], 3⟩ 4 (.terminal [1]) 0 [] 3 = .error .limitExceeded ∧
    trace ⟨0, 2, [], 3⟩ 4 (.terminal [1]) 0 [] 2 = .ok (0, [], 3) :=
  ⟨(trace_zero_prob_counts_budget ⟨0, 2, [], 3⟩ 3 (.terminal [1]) [] 3).1
      (by decide),
   (trace_zero_prob_counts_budget ⟨0, 2, [], 3⟩ 3 (.terminal [1]) [] 2).2
      (by decide)⟩

/-! Claim C3. -/

/-- C3: behavior of the walker on a within-budget, nonzero-probability
call: at a responding-player decision it appends the reach item under the
observation key and returns 0; at a terminal it returns
`payoff[player] * probability`; at a chance node it dispatches to the sum
over the chance distribution; at an opponent decision it dispatches to the
sum over the opponent's policy distribution; and the dispatched sum is the
left-to-right sum of the recursive walks of the successors at reach
`pr * probability`. -/
theorem trace_case_behavior (T : Ctx) (fu n : ℕ) (σ : Supports) (prob : ℚ)
    (hb : n + 1 ≤ T.maxNodes) (hp : prob ≠ 0) :
    (∀ obs cs, trace T (fu + 1) (.decision T.player obs cs) prob σ n
        = .ok (0, addSupport σ obs (.decision T.player obs cs, prob), n + 1)) ∧
    (∀ payoff, trace T (fu + 1) (.terminal payoff) prob σ n
        = .ok (payoff.getD T.player 0 * prob, σ, n + 1)) ∧
    (∀ cs, trace T (fu + 1) (.chance cs) prob σ n
        = traceDist T fu (.chance cs) (chanceDist cs) prob σ (n + 1)) ∧
    (∀ p obs cs st, p ≠ T.player → T.strategies.get? p = some st →
        trace T (fu + 1) (.decision p obs cs) prob σ n
          = traceDist T fu (.decision p obs cs) (st (.decision p obs cs)) prob σ
              (n + 1)) ∧
    (∀ s, traceDist T (fu + 1) s [] prob σ n = .ok (0, σ, n)) ∧
    (∀ s a pr rest v σ2 n2,
        traceDist T (fu + 1) s ((a, pr) :: rest) prob σ n = .ok (v, σ2, n2) ↔
          ∃ s2 v1 σ1 n1 v2, play s a = some s2 ∧
            trace T fu s2 (pr * prob) σ n = .ok (v1, σ1, n1) ∧
            traceDist T fu s rest prob σ1 n1 = .ok (v2, σ2, n2) ∧
            v = v1 + v2) := by
  refine ⟨fun obs cs => ?_, fun payoff => ?_, fun cs => ?_,
    fun p obs cs st hne hst => ?_, fun s => ?_, fun s a pr rest v σ2 n2 => ?_⟩
  · unfold trace; rw [if_neg (by omega), if_neg hp]
    dsimp only; rw [if_pos rfl]
  · unfold trace; rw [if_neg (by omega), if_neg hp]
  · unfold trace; rw [if_neg (by omega), if_neg hp]
  · unfold trace; rw [if_neg (by omega), if_neg hp]
    dsimp only; rw [if_neg hne, hst]
  · unfold traceDist; rfl
  · constructor
    · intro h
      unfold traceDist at h
      split at h
      · exact absurd h (by simp)
      next s2 hplay =>
        split at h
        · exact absurd h (by simp)
        next v1 σ1 n1 htr =>
          split at h
          · exact absurd h (by simp)
          next v2 σ2' n2' hrest =>
            injection h with h'
            simp only [Prod.mk.injEq] at h'
            obtain ⟨hv, hσ, hn⟩ := h'
            subst hv; subst hσ; subst hn
            exact ⟨s2, v1, σ1, n1, v2, hplay, htr, hrest, rfl⟩
    · rintro ⟨s2, v1, σ1, n1, v2, hplay, htr, hrest, hv⟩
      unfold traceDist
      simp only [hplay, htr, hrest, hv]

/-- C3 witness: the four walker behaviors and the sum semantics, evaluated
on concrete inputs from matching pennies. -/
theorem trace_case_behavior_witness :
    trace penniesCtx 3 (.terminal [4, 7]) (1/2) [] 0 = .ok (2, [], 1) ∧
    trace penniesCtx 3 pennies0 (1/2) [] 0
      = .ok (0, [(5, [(pennies0, 1/2)])], 1) := by
  have h := trace_case_behavior penniesCtx 2 0 [] (1/2) (by decide) (by norm_num)
  constructor
  · rw [h.2.1 [4, 7]]; with_unfolding_all rfl
  · rw [show pennies0 = Node.decision penniesCtx.player 5
        [(0, .terminal [1, -1]), (1, .terminal [-1, 1])] from rfl]
    rw [h.1 5 [(0, .terminal [1, -1]), (1, .terminal [-1, 1])]]
    with_unfolding_all rfl

/-! Claim C8. -/

/-- Modelled from the spec: the approximate exploitability wrapper has no
hard failure mode past its two asserts; its MCCFR training and Monte Carlo
sampling are external collaborators, abstracted here as a sampler that
produces the averaged payoff of `iterations // 2` plays. -/
def approxExploitability (players : ℕ) (measuredPlayer : ℕ)
    (sampler : ℕ → ℚ) (iterations : ℕ) : Except Err ℚ :=
  if players = 2 then
    if measuredPlayer = 0 ∨ measuredPlayer = 1 then
      .ok (sampler (iterations / 2))
    else .error .precondition
  else .error .precondition

/-- C8: the best-response constructor and the exploitability helpers fail
with a precondition error exactly for an invalid responding-player index,
a strategy list whose length differs from `game.players`, or a
non-two-player game; the equivalence holds for every game tree and every
fuel, including fuel 0, so the failure precedes any traversal work. -/
theorem precondition_check_iff :
    (∀ players (player : ℤ) strategies maxNodes fu g,
      bestResponseChecked players player strategies maxNodes fu g
          = .error .precondition ↔
        ¬ (0 ≤ player ∧ player < (players : ℤ)) ∨
          strategies.length ≠ players) ∧
    (∀ players g mp strategy maxNodes fu,
      exploitability players g mp strategy maxNodes fu
          = .error .precondition ↔
        ¬ (mp = 0 ∨ mp = 1) ∨ players ≠ 2) ∧
    (∀ players mp sampler iterations,
      approxExploitability players mp sampler iterations
          = .error .precondition ↔
        players ≠ 2 ∨ ¬ (mp = 0 ∨ mp = 1)) := by
  refine ⟨fun players player strategies maxNodes fu g => ?_,
    fun players g mp strategy maxNodes fu => ?_,
    fun players mp sampler iterations => ?_⟩
  · unfold bestResponseChecked
    by_cases h1 : player < (players : ℤ) ∧ 0 ≤ player
    · rw [if_pos h1]
      by_cases h2 : strategies.length = players
      · rw [if_pos h2]
        constructor
        · intro hcontra
          cases hbr : bestResponse ⟨player.toNat, players, strategies, maxNodes⟩
              fu g with
          | error e => rw [hbr] at hcontra; simp [Except.mapError] at hcontra
          | ok r => rw [hbr] at hcontra; simp [Except.mapError] at hcontra
        · rintro (h | h)
          · exact absurd ⟨h1.2, h1.1⟩ h
          · exact absurd h2 h
      · rw [if_neg h2]
        exact ⟨fun _ => Or.inr h2, fun _ => rfl⟩
    · rw [if_neg h1]
      refine ⟨fun _ => Or.inl fun hc => h1 ⟨hc.2, hc.1⟩, fun _ => rfl⟩
  · unfold exploitability
    by_cases h1 : mp = 0 ∨ mp = 1
    · rw [if_pos h1]
      by_cases h2 : players = 2
      · rw [if_pos h2]
        constructor
        · intro hcontra
          exfalso
          subst h2
          have hok : bestResponseChecked 2 (1 - (mp : ℤ)) [strategy, strategy]
              maxNodes fu g
              = (bestResponse ⟨(1 - (mp : ℤ)).toNat, 2, [strategy, strategy],
                  maxNodes⟩ fu g).mapError .trav := by
            unfold bestResponseChecked
            rw [if_pos (by rcases h1 with h | h <;> subst h <;> constructor <;>
              decide),
              if_pos (show [strategy, strategy].length = 2 from rfl)]
          rw [hok] at hcontra
          cases hbr : bestResponse ⟨(1 - (mp : ℤ)).toNat, 2,
              [strategy, strategy], maxNodes⟩ fu g with
          | error e =>
            rw [hbr] at hcontra; simp [Except.mapError, Except.map] at hcontra
          | ok r =>
            rw [hbr] at hcontra; simp [Except.mapError, Except.map] at hcontra
        · rintro (h | h)
          · exact absurd h1 h
          · exact absurd h2 h
      · rw [if_neg h2]
        exact ⟨fun _ => Or.inr h2, fun _ => rfl⟩
    · rw [if_neg h1]
      exact ⟨fun _ => Or.inl h1, fun _ => rfl⟩
  · unfold approxExploitability
    by_cases h2 : players = 2
    · rw [if_pos h2]
      by_cases h1 : mp = 0 ∨ mp = 1
      · rw [if_pos h1]
        exact ⟨fun hcontra => absurd hcontra (by simp),
          fun h => by rcases h with h | h; exact absurd h2 h; exact absurd h1 h⟩
      · rw [if_neg h1]
        exact ⟨fun _ => Or.inr h1, fun _ => rfl⟩
    · rw [if_neg h2]
      exact ⟨fun _ => Or.inl h2, fun _ => rfl⟩

/-- C8 witness: a negative player index fails the precondition check even
with zero fuel, and valid matching-pennies inputs do not produce a
precondition failure. -/
theorem precondition_check_iff_witness :
    bestResponseChecked 2 (-1) [stEmpty, stUnif01] 9 0 penniesRoot
      = .error .precondition ∧
    exploitability 3 penniesRoot 0 stUnif01 9 0 = .error .precondition ∧
    ¬ exploitability 2 penniesRoot 0 stUnif01 100 100 = .error .precondition :=
  ⟨(precondition_check_iff.1 2 (-1) [stEmpty, stUnif01] 9 0 penniesRoot).mpr
      (Or.inl (by decide)),
   (precondition_check_iff.2.1 3 penniesRoot 0 stUnif01 9 0).mpr
      (Or.inr (by decide)),
   fun h => by
    have := (precondition_check_iff.2.1 2 penniesRoot 0 stUnif01 100 100).mp h
    rcases this with h' | h'
    · exact h' (Or.inl rfl)
    · exact h' rfl⟩

/-! Claim C9. -/

/-- C9: for a two-player game and a valid measured player, exploitability
is exactly the value component of the exact best response computed for the
other player `1 - measuredPlayer` against the strategy profile that uses
the tested strategy in both seats. -/
theorem exploitability_eq_bestResponse_value (players : ℕ) (g : Node)
    (mp : ℕ) (s : Strat) (maxNodes fu : ℕ) (hmp : mp = 0 ∨ mp = 1)
    (hpl : players = 2) :
    exploitability players g mp s maxNodes fu
      = ((bestResponse ⟨1 - mp, players, [s, s], maxNodes⟩ fu g).mapError
          Err.trav).map fun r => r.1 := by
  subst hpl
  rcases hmp with h | h <;> subst h <;> rfl

/-- C9 witness: on matching pennies the instantiated equality holds and
both sides evaluate to the best-response value 0 of the other player. -/
theorem exploitability_eq_bestResponse_value_witness :
    exploitability 2 penniesRoot 0 stUnif01 100 100
      = ((bestResponse ⟨1, 2, [stUnif01, stUnif01], 100⟩ 100 penniesRoot).mapError
          Err.trav).map (fun r => r.1) ∧
    exploitability 2 penniesRoot 0 stUnif01 100 100 = .ok 0 :=
  ⟨exploitability_eq_bestResponse_value 2 penniesRoot 0 stUnif01 100 100
      (Or.inl rfl) rfl,
   by with_unfolding_all rfl⟩

/-! Claim C7. -/

/-- First state of a mismatched group: responding-player decision node
under key 7 offering only action 0. -/
def mis1 : Node := .decision 0 7 [(0, .terminal [2, -2])]

/-- Second state of a mismatched group: same key 7 but two actions, with an
arbitrary subtree under the extra action 1. -/
def mis2 (t : Node) : Node := .decision 0 7 [(0, .terminal [0, 0]), (1, t)]

/-- Context used by the mismatched-group runs. -/
def misCtx : Ctx := ⟨0, 2, [stEmpty, stEmpty], 100⟩

/-- C7 counterexample: two states aggregated under the same information-set
key 7 offer different legal action sets, yet the solver raises no
consistency error and silently returns an answer. -/
theorem traverse_mismatch_counterexample :
    actionsOf mis1 ≠ actionsOf (mis2 (.terminal [9, 9])) ∧
    traverse misCtx 100 7 [(mis1, 1), (mis2 (.terminal [9, 9]), 1/2)] 0
      = .ok ((2, [(7, [1])]), 2) :=
  ⟨by decide, by with_unfolding_all rfl⟩

/-- C7 amended: the solver performs no action-set consistency check. It
reads the legal action set from the first reach item of the group and plays
exactly those actions on every state: an extra action offered by a later
item is never evaluated (the returned answer is independent of the subtree
placed under it), and when a later item lacks one of the first item's
actions the failure comes from the external game model's successor lookup,
not from a solver assert. -/
theorem traverse_mismatch_uses_head_actions :
    (∀ t : Node,
      traverse misCtx 100 7 [(mis1, 1), (mis2 t, 1/2)] 0
        = .ok ((2, [(7, [1])]), 2)) ∧
    traverse misCtx 100 7 [(mis2 (.terminal [9, 9]), 1/2), (mis1, 1)] 0
      = .error .invalidAction :=
  ⟨fun t => by
    simp only [traverse, evalActions, traceSupport, solveGroups, trace,
      traceDist, play, actionsOf, chanceDist, addSupport, polInsert, polUpdate,
      polGet, maxQ, bestDist, bdistOf, isBest, tieEps, mis1, mis2, misCtx,
      stEmpty]
    with_unfolding_all rfl,
   by with_unfolding_all rfl⟩

/-! Claim C2. -/

/-- Deeper responding-player node that shares observation key 5 with its
ancestor `c2top` and whose two actions tie. -/
def c2mid : Node := .decision 0 5 [(0, .terminal [1, -1]), (1, .terminal [1, -1])]

/-- Responding-player node under key 5: action 0 leads to the same-key node
`c2mid` (value 1), action 1 to a terminal of value 0. -/
def c2top : Node := .decision 0 5 [(0, c2mid), (1, .terminal [0, 0])]

/-- The embedded numpy maximum agrees with the library list maximum. -/
theorem maxQ_eq_listMax (l : List ℚ) : maxQ l = l.max? := by
  cases l <;> rfl

/-- The maximum of a nonempty value list is one of the values. -/
theorem maxQ_mem {l : List ℚ} {mx : ℚ} (h : maxQ l = some mx) : mx ∈ l :=
  List.max?_mem (fun a b => max_choice a b) (maxQ_eq_listMax l ▸ h)

/-- Every value is at most the maximum. -/
theorem maxQ_le {l : List ℚ} {mx : ℚ} (h : maxQ l = some mx) :
    ∀ x ∈ l, x ≤ mx :=
  (List.max?_le_iff (fun a b c => max_le_iff) (maxQ_eq_listMax l ▸ h)).1 le_rfl

/-- Sum of an indicator-times-constant map is the match count times the
constant. -/
theorem sum_map_ite_count {p : ℚ → Prop} [DecidablePred p] (l : List ℚ)
    (c : ℚ) :
    (l.map fun x => if p x then c else 0).sum
      = ((l.countP fun x => decide (p x)) : ℚ) * c := by
  induction l with
  | nil => simp
  | cons a l ih =>
    simp only [List.map_cons, List.sum_cons, ih, List.countP_cons]
    by_cases h : p a
    · simp only [h, if_pos, decide_eq_true_eq, if_true]
      push_cast [h]
      ring
    · simp [h]

/-- Modelled from the claim wording at the reference tolerance (exact
equality with the maximum): equal probability on every value-maximal
action and zero on every other action. -/
def uniformOverBest (values : List ℚ) (mx : ℚ) : List ℚ :=
  values.map fun x =>
    if x = mx then 1 / ((values.countP fun y => decide (y = mx)) : ℚ) else 0

/-- The tie marking of the source, whose relative tolerance is the literal
zero `0e-6`, marks exactly the values equal to the maximum. -/
theorem isBest_eq_max_marks {values : List ℚ} {mx : ℚ}
    (h : maxQ values = some mx) :
    isBest values mx = values.map fun v => decide (v = mx) := by
  have hle := maxQ_le h
  unfold isBest tieEps
  refine List.map_congr_left fun a ha => ?_
  rw [decide_eq_decide]
  constructor
  · intro hge
    have : mx ≤ a := by linarith
    exact le_antisymm (hle a ha) this
  · intro heq
    rw [heq]
    linarith

/-- The normalized indicator distribution of the source equals the uniform
distribution over the maximal actions. -/
theorem bestDist_eq_uniform {values : List ℚ} {mx : ℚ}
    (h : maxQ values = some mx) :
    bestDist values mx = uniformOverBest values mx := by
  have hcomp : bdistOf values mx = values.map fun v => if v = mx then (1:ℚ) else 0 := by
    unfold bdistOf
    rw [isBest_eq_max_marks h, List.map_map]
    refine List.map_congr_left fun a _ => ?_
    by_cases hv : a = mx <;> simp [hv, Function.comp]
  unfold bestDist uniformOverBest
  rw [hcomp, sum_map_ite_count values (1 : ℚ), mul_one, List.map_map]
  refine List.map_congr_left fun a _ => ?_
  by_cases hv : a = mx <;> simp [hv, Function.comp]

/-- The uniform-over-best distribution sums to exactly 1. -/
theorem uniformOverBest_sum {values : List ℚ} {mx : ℚ}
    (h : maxQ values = some mx) : (uniformOverBest values mx).sum = 1 := by
  have hk : 0 < values.countP fun y => decide (y = mx) :=
    List.countP_pos_iff.mpr ⟨mx, maxQ_mem h, by simp⟩
  unfold uniformOverBest
  rw [sum_map_ite_count values (1 / ((values.countP fun y => decide (y = mx)) : ℚ)),
    mul_one_div, div_self]
  exact_mod_cast hk.ne'

/-- Overwriting the entries of key `k` leaves lookups of other keys
unchanged. -/
theorem polGet_map_overwrite (pol : Policy) {k k' : ℕ} (d : List ℚ)
    (hne : k' ≠ k) :
    polGet (pol.map fun e => if e.1 == k then (e.1, d) else e) k'
      = polGet pol k' := by
  induction pol with
  | nil => rfl
  | cons e pol ih =>
    simp only [List.map_cons]
    unfold polGet
    by_cases he : (e.1 == k) = true
    · rw [if_pos he]
      rw [beq_iff_eq] at he
      have hf : (e.1 == k') = false := by
        rw [beq_eq_false_iff_ne, he]
        exact fun hc => hne hc.symm
      rw [List.find?_cons_of_neg _ (by simp [hf]),
        List.find?_cons_of_neg _ (by simp [hf])]
      exact ih
    · rw [if_neg he]
      cases hp : (e.1 == k') with
      | true =>
        rw [List.find?_cons_of_pos _ (by simp [hp]),
          List.find?_cons_of_pos _ (by simp [hp])]
      | false =>
        rw [List.find?_cons_of_neg _ (by simp [hp]),
          List.find?_cons_of_neg _ (by simp [hp])]
        exact ih

/-- Appending an entry for key `k` leaves lookups of other keys
unchanged. -/
theorem polGet_append_ne (pol : Policy) {k k' : ℕ} (d : List ℚ)
    (hne : k' ≠ k) :
    polGet (pol ++ [(k, d)]) k' = polGet pol k' := by
  unfold polGet
  rw [List.find?_append]
  cases h : pol.find? fun e => e.1 == k' with
  | some e => simp [h]
  | none =>
    simp only [h, Option.none_or]
    rw [List.find?_cons_of_neg _ (by simp; exact fun hc => hne hc.symm)]
    rfl

/-- Dictionary assignment of key `k` leaves lookups of other keys
unchanged. -/
theorem polGet_polInsert_ne (pol : Policy) {k k' : ℕ} (d : List ℚ)
    (hne : k' ≠ k) : polGet (polInsert pol k d) k' = polGet pol k' := by
  unfold polInsert
  split
  · exact polGet_map_overwrite pol d hne
  · exact polGet_append_ne pol d hne

/-- A policy whose lookup of `k` is empty has no entry keyed `k`. -/
theorem polGet_none_keys {b : Policy} {k : ℕ} (h : polGet b k = none) :
    ∀ e ∈ b, e.1 ≠ k := by
  intro e he
  unfold polGet at h
  have := List.find?_eq_none.mp (Option.map_eq_none'.mp h) e he
  simpa using this

/-- Merging a dictionary without key `k` leaves lookups of `k`
unchanged. -/
theorem polGet_polUpdate_of_none (pol : Policy) {other : Policy} {k : ℕ}
    (h : polGet other k = none) :
    polGet (polUpdate pol other) k = polGet pol k := by
  have hk := polGet_none_keys h
  clear h
  induction other generalizing pol with
  | nil => rfl
  | cons e other ih =>
    unfold polUpdate at *
    simp only [List.foldl_cons]
    rw [ih _ fun q hq => hk q (List.mem_cons_of_mem _ hq)]
    exact polGet_polInsert_ne pol e.2
      fun hc => hk e (List.mem_cons_self _ _) hc.symm

/-- The conditional merge loop of `traverse` preserves the entry of the
solved information set as long as no merged sub-policy carries its key. -/
theorem polGet_fold_preserved (iset : ℕ) (dist : List ℚ)
    (pairs : List (Policy × Bool)) (acc : Policy)
    (hacc : polGet acc iset = some dist)
    (h : ∀ pb ∈ pairs, polGet pb.1 iset = none) :
    polGet (pairs.foldl
        (fun acc e => if e.2 then polUpdate acc e.1 else acc) acc) iset
      = some dist := by
  induction pairs generalizing acc with
  | nil => exact hacc
  | cons pb pairs ih =>
    simp only [List.foldl_cons]
    refine ih _ ?_ fun q hq => h q (List.mem_cons_of_mem _ hq)
    cases hb : pb.2 with
    | true =>
      simp only [hb, if_true]
      rw [polGet_polUpdate_of_none acc (h pb (List.mem_cons_self _ _))]
      exact hacc
    | false => simpa [hb] using hacc

/-- C2 counterexample: solving the key-5 group of `c2top` computes action
values [1, 0], so the claim requires the returned entry for key 5 to be
the uniform distribution [1, 0] over the unique best action, but the entry
of the deeper key-5 group discovered under the best action overwrites it
and [1/2, 1/2] is returned instead. -/
theorem traverse_policy_overwrite_counterexample :
    traverse misCtx 100 5 [(c2top, 1)] 0
      = .ok ((1, [(5, [1/2, 1/2])]), 4) ∧
    evalActions misCtx 99 [(c2top, 1)] (actionsOf c2top) 0
      = .ok (([1, 0], [[(5, [1/2, 1/2])], []]), 4) ∧
    uniformOverBest [1, 0] 1 = [1, 0] ∧
    ¬ ([(1 : ℚ)/2, 1/2] = [1, 0]) :=
  ⟨by with_unfolding_all rfl, by with_unfolding_all rfl,
   by with_unfolding_all rfl,
   fun h => by
    have h2 : ((1 : ℚ)/2) = 1 := by injection h
    norm_num at h2⟩

/-- C2 amended: the solver computes for each solved information set the
entry that assigns equal probability to every action whose value equals
the maximum (the relative tolerance of the source is the literal zero
`0e-6`) and probability 0 to every other action, summing to exactly 1;
this computed entry is the one returned for the information set whenever
no deeper group solved under a best action shares the same key, while a
same-key deeper entry overwrites it. -/
theorem traverse_policy_uniform_over_best (T : Ctx) (fu iset n : ℕ)
    (s0 : SupportItem) (rest : List SupportItem) (v : ℚ) (br : Policy)
    (n' n1 : ℕ) (values : List ℚ) (brs : List Policy)
    (h : traverse T (fu + 1) iset (s0 :: rest) n = .ok ((v, br), n'))
    (hev : evalActions T fu (s0 :: rest) (actionsOf s0.1) n
      = .ok ((values, brs), n1))
    (hnone : ∀ b ∈ brs, polGet b iset = none) :
    maxQ values = some v ∧
    polGet br iset = some (uniformOverBest values v) ∧
    (uniformOverBest values v).sum = 1 := by
  unfold traverse at h
  dsimp only at h
  rw [hev] at h
  dsimp only at h
  cases hmx : maxQ values with
  | none => rw [hmx] at h; cases h
  | some mx =>
    rw [hmx] at h
    dsimp only at h
    injection h with h'
    injection h' with h1 h2
    injection h1 with hv hbr
    subst hv
    refine ⟨rfl, ?_, uniformOverBest_sum hmx⟩
    rw [← hbr, ← bestDist_eq_uniform hmx]
    refine polGet_fold_preserved iset (bestDist values mx)
      (brs.zip (isBest values mx)) _ ?_ ?_
    · show polGet (polInsert [] iset (bestDist values mx)) iset = _
      unfold polInsert polGet
      simp
    · intro pb hpb
      exact hnone pb.1 (List.of_mem_zip hpb).1

/-- C2 amended witness: on the matching-pennies group under key 5, both
action values are 0, no deeper group exists, and the returned entry is the
uniform distribution [1/2, 1/2] summing to 1. -/
theorem traverse_policy_uniform_over_best_witness :
    maxQ [0, 0] = some 0 ∧
    polGet [(5, [1/2, 1/2])] 5 = some (uniformOverBest [0, 0] 0) ∧
    (uniformOverBest [0, 0] 0).sum = 1 :=
  traverse_policy_uniform_over_best penniesCtx 99 5 0 (pennies0, 1/2)
    [(pennies1, 1/2)] 0 [(5, [1/2, 1/2])] 4 4 [0, 0] [[], []]
    (by with_unfolding_all rfl) (by with_unfolding_all rfl)
    (by intro b hb
        simp only [List.mem_cons, List.not_mem_nil, or_false] at hb
        rcases hb with rfl | rfl <;> rfl)

/-! Claim C1. -/

/-- Modelled from the claim wording: an action's total value at a group is
the sum of the walker's return over every reach item of the group played
through that action into a fresh sink, plus the recursively solved value of
every information-set group newly discovered during those walker calls. -/
def actionTotals (T : Ctx) : ℕ → List SupportItem → List ℕ → ℕ →
    Except TravErr (List ℚ × ℕ)
  | 0, _, _, _ => .error .outOfFuel
  | _+1, _, [], n => .ok ([], n)
  | fu+1, support, a :: rest, n =>
    match traceSupport T fu support a [] n with
    | .error e => .error e
    | .ok (v1, σ, n1) =>
      match solveGroups T fu σ [] n1 with
      | .error e => .error e
      | .ok ((v2, _), n2) =>
        match actionTotals T fu support rest n2 with
        | .error e => .error e
        | .ok (vs, n3) => .ok ((v1 + v2) :: vs, n3)

/-- The per-action loop of the solver computes exactly the claim-side
action totals, over the same states and with the same counter. -/
theorem evalActions_totals (T : Ctx) : ∀ fu support acts n vs brs m,
    evalActions T fu support acts n = .ok ((vs, brs), m) →
    actionTotals T fu support acts n = .ok (vs, m) := by
  intro fu
  induction fu with
  | zero => intro support acts n vs brs m h; cases h
  | succ fu ih =>
    intro support acts n vs brs m h
    cases acts with
    | nil =>
      unfold evalActions at h
      injection h with h'
      injection h' with h1 h2
      injection h1 with h3 h4
      subst h3; subst h2
      rfl
    | cons a rest =>
      unfold evalActions at h
      unfold actionTotals
      split at h
      · cases h
      next v1 σ n1 hts =>
        split at h
        · cases h
        next v2 br2 n2 hsg =>
          split at h
          · cases h
          next vs2 brs2 n3 hea =>
            rw [ih support rest n2 vs2 brs2 n3 hea]
            injection h with h'
            injection h' with h1 h2
            injection h1 with h3 h4
            subst h3; subst h2
            rfl

/-- C1: the value returned by the solver for a group is the maximum, over
the group's legal actions (those of its first state), of that action's
total value: the summed walker returns over the group's reach items played
through the action plus the recursively solved values of the groups newly
discovered during those walks. -/
theorem traverse_value_is_max_action_total (T : Ctx) (fu iset n : ℕ)
    (s0 : SupportItem) (rest : List SupportItem) (v : ℚ) (br : Policy)
    (n' n1 : ℕ) (values : List ℚ)
    (h : traverse T (fu + 1) iset (s0 :: rest) n = .ok ((v, br), n'))
    (ha : actionTotals T fu (s0 :: rest) (actionsOf s0.1) n
      = .ok (values, n1)) :
    maxQ values = some v := by
  unfold traverse at h
  dsimp only at h
  cases hev : evalActions T fu (s0 :: rest) (actionsOf s0.1) n with
  | error e => rw [hev] at h; cases h
  | ok r =>
    obtain ⟨⟨vs, brs⟩, m⟩ := r
    rw [hev] at h
    dsimp only at h
    have hat := evalActions_totals T fu (s0 :: rest) (actionsOf s0.1) n vs brs
      m hev
    rw [ha] at hat
    injection hat with hat'
    injection hat' with hvs hm
    subst hvs
    cases hmx : maxQ values with
    | none => rw [hmx] at h; cases h
    | some mx =>
      rw [hmx] at h
      dsimp only at h
      injection h with h'
      injection h' with h1 h2
      injection h1 with h3 h4
      rw [h3]

/-- C1 witness: on the matching-pennies group both action totals are 0 and
the solver returns their maximum 0. -/
theorem traverse_value_is_max_action_total_witness : maxQ [0, 0] = some 0 :=
  traverse_value_is_max_action_total penniesCtx 99 5 0 (pennies0, 1/2)
    [(pennies1, 1/2)] 0 [(5, [1/2, 1/2])] 4 4 [0, 0]
    (by with_unfolding_all rfl) (by with_unfolding_all rfl)

/-! Claim C4. -/

/-- Budget behavior of one traversal computation as a function of the
configured bound: starting at counter `n` it finishes with answer `r` and
final counter `m` for every bound at least `m` (and for every bound at all
when it performs no counter work, `n = m`), and it fails with LimitExceeded
for every smaller bound as soon as it performs any counter work. -/
def RunSpec {α : Type} (F : ℕ → Except TravErr α) (n : ℕ) (r : α) (m : ℕ) :
    Prop :=
  n ≤ m ∧ (∀ M, m ≤ M ∨ n = m → F M = .ok r) ∧
    ∀ M, M < m → n < m → F M = .error .limitExceeded

/-- A computation that succeeds identically under every bound does no
counter work. -/
theorem runSpec_const {α : Type} {F : ℕ → Except TravErr α} {n : ℕ} {r : α}
    (h : ∀ M, F M = .ok r) : RunSpec F n r n :=
  ⟨le_rfl, fun M _ => h M, fun M _ hn => absurd hn (lt_irrefl n)⟩

/-- Budget behavior transports along pointwise equal computations. -/
theorem runSpec_congr {α : Type} {F G : ℕ → Except TravErr α} {n m : ℕ}
    {r : α} (h : ∀ M, F M = G M) (hF : RunSpec F n r m) : RunSpec G n r m :=
  ⟨hF.1, fun M hM => h M ▸ hF.2.1 M hM, fun M hM hn => h M ▸ hF.2.2 M hM hn⟩

/-- Entry check of the walker followed by an immediate answer. -/
theorem runSpec_entry_const {α : Type} {C : ℕ → Except TravErr α} {n : ℕ}
    {r : α}
    (hC : ∀ M, C M = if M < n + 1 then .error .limitExceeded else .ok r) :
    RunSpec C n r (n + 1) := by
  refine ⟨Nat.le_succ n, ?_, ?_⟩
  · rintro M (hM | hM)
    · rw [hC M, if_neg (by omega)]
    · exact absurd hM (by omega)
  · intro M hM _
    rw [hC M, if_pos (by omega)]

/-- Entry check of the walker followed by a continuation. -/
theorem runSpec_entry_call {α : Type} {C D : ℕ → Except TravErr α} {n m : ℕ}
    {r : α}
    (hC : ∀ M, C M = if M < n + 1 then .error .limitExceeded else D M)
    (hD : RunSpec D (n + 1) r m) : RunSpec C n r m := by
  obtain ⟨hm, hok, herr⟩ := hD
  refine ⟨by omega, ?_, ?_⟩
  · rintro M (hM | hM)
    · rw [hC M, if_neg (by omega)]
      exact hok M (Or.inl hM)
    · exact absurd hM (by omega)
  · intro M hM _
    rw [hC M]
    by_cases hlt : M < n + 1
    · rw [if_pos hlt]
    · rw [if_neg hlt]
      exact herr M hM (by omega)

/-- Sequencing two budget-threaded computations. -/
theorem runSpec_seq {α β γ : Type} {F : ℕ → Except TravErr α}
    {G : ℕ → Except TravErr β} {C : ℕ → Except TravErr γ} {n n1 n2 : ℕ}
    {a : α} {b : β} {c : γ}
    (hF : RunSpec F n a n1) (hG : RunSpec G n1 b n2)
    (hok : ∀ M, F M = .ok a → G M = .ok b → C M = .ok c)
    (hferr : ∀ M e, F M = .error e → C M = .error e)
    (hgerr : ∀ M, F M = .ok a → ∀ e, G M = .error e → C M = .error e) :
    RunSpec C n c n2 := by
  obtain ⟨hn1, hFok, hFerr⟩ := hF
  obtain ⟨hn2, hGok, hGerr⟩ := hG
  refine ⟨by omega, ?_, ?_⟩
  · rintro M (hM | hM)
    · exact hok M (hFok M (Or.inl (by omega))) (hGok M (Or.inl hM))
    · exact hok M (hFok M (Or.inr (by omega))) (hGok M (Or.inr (by omega)))
  · intro M hM hn
    by_cases hM1 : n1 ≤ M
    · exact hgerr M (hFok M (Or.inl hM1)) _ (hGerr M hM (by omega))
    · push_neg at hM1
      by_cases hnn1 : n < n1
      · exact hferr M _ (hFerr M hM1 hnn1)
      · exact hgerr M (hFok M (Or.inr (by omega))) _ (hGerr M hM (by omega))

/-- Sequencing three budget-threaded computations. -/
theorem runSpec_seq3 {α β γ δ : Type} {F : ℕ → Except TravErr α}
    {G : ℕ → Except TravErr β} {H : ℕ → Except TravErr γ}
    {C : ℕ → Except TravErr δ} {n n1 n2 n3 : ℕ} {a : α} {b : β} {c : γ}
    {d : δ}
    (hF : RunSpec F n a n1) (hG : RunSpec G n1 b n2) (hH : RunSpec H n2 c n3)
    (hok : ∀ M, F M = .ok a → G M = .ok b → H M = .ok c → C M = .ok d)
    (hferr : ∀ M e, F M = .error e → C M = .error e)
    (hgerr : ∀ M, F M = .ok a → ∀ e, G M = .error e → C M = .error e)
    (hherr : ∀ M, F M = .ok a → G M = .ok b → ∀ e, H M = .error e →
      C M = .error e) :
    RunSpec C n d n3 := by
  obtain ⟨hn1, hFok, hFerr⟩ := hF
  obtain ⟨hn2, hGok, hGerr⟩ := hG
  obtain ⟨hn3, hHok, hHerr⟩ := hH
  refine ⟨by omega, ?_, ?_⟩
  · rintro M (hM | hM)
    · exact hok M (hFok M (Or.inl (by omega))) (hGok M (Or.inl (by omega)))
        (hHok M (Or.inl hM))
    · exact hok M (hFok M (Or.inr (by omega))) (hGok M (Or.inr (by omega)))
        (hHok M (Or.inr (by omega)))
  · intro M hM hn
    by_cases h2 : n2 ≤ M
    · exact hherr M (hFok M (Or.inl (by omega))) (hGok M (Or.inl (by omega)))
        _ (hHerr M hM (by omega))
    · push_neg at h2
      by_cases h1 : n1 ≤ M
      · by_cases hg : n1 < n2
        · exact hgerr M (hFok M (Or.inl h1)) _ (hGerr M h2 hg)
        · exact hherr M (hFok M (Or.inl h1)) (hGok M (Or.inr (by omega))) _
            (hHerr M hM (by omega))
      · push_neg at h1
        by_cases hf : n < n1
        · exact hferr M _ (hFerr M h1 hf)
        · by_cases hg : n1 < n2
          · exact hgerr M (hFok M (Or.inr (by omega))) _ (hGerr M h2 hg)
          · exact hherr M (hFok M (Or.inr (by omega)))
              (hGok M (Or.inr (by omega))) _ (hHerr M hM (by omega))

/-- Deterministic post-processing of a budget-threaded computation. -/
theorem runSpec_map {α β : Type} {F : ℕ → Except TravErr α}
    {C : ℕ → Except TravErr β} {n m : ℕ} {a : α} {b : β}
    (hF : RunSpec F n a m)
    (hok : ∀ M, F M = .ok a → C M = .ok b)
    (herr : ∀ M e, F M = .error e → C M = .error e) :
    RunSpec C n b m := by
  obtain ⟨hn, hFok, hFerr⟩ := hF
  exact ⟨hn, fun M hM => hok M (hFok M hM),
    fun M hM hlt => herr M _ (hFerr M hM hlt)⟩

/-- Budget behavior of every traversal function: a successful run at any
configured bound determines the outcome at every other bound, the counter
never decreases, the walker strictly increments it, success needs the bound
to accommodate the final counter, and any smaller bound yields
LimitExceeded. -/
theorem budget_run_spec (T : Ctx) : ∀ fu,
    (∀ s prob σ n v σ2 m, trace T fu s prob σ n = .ok (v, σ2, m) →
      n < m ∧ RunSpec (fun M => trace {T with maxNodes := M} fu s prob σ n)
        n (v, σ2, m) m) ∧
    (∀ s dist prob σ n v σ2 m,
      traceDist T fu s dist prob σ n = .ok (v, σ2, m) →
      RunSpec (fun M => traceDist {T with maxNodes := M} fu s dist prob σ n)
        n (v, σ2, m) m) ∧
    (∀ sup a σ n v σ2 m, traceSupport T fu sup a σ n = .ok (v, σ2, m) →
      RunSpec (fun M => traceSupport {T with maxNodes := M} fu sup a σ n)
        n (v, σ2, m) m) ∧
    (∀ iset sup n vb m, traverse T fu iset sup n = .ok (vb, m) →
      RunSpec (fun M => traverse {T with maxNodes := M} fu iset sup n)
        n (vb, m) m) ∧
    (∀ sup acts n vb m, evalActions T fu sup acts n = .ok (vb, m) →
      RunSpec (fun M => evalActions {T with maxNodes := M} fu sup acts n)
        n (vb, m) m) ∧
    (∀ σg acc n vb m, solveGroups T fu σg acc n = .ok (vb, m) →
      RunSpec (fun M => solveGroups {T with maxNodes := M} fu σg acc n)
        n (vb, m) m) := by
  intro fu
  induction fu with
  | zero =>
    refine ⟨?_, ?_, ?_, ?_, ?_, ?_⟩
    · intro s prob σ n v σ2 m h; simp [trace] at h
    · intro s dist prob σ n v σ2 m h; simp [traceDist] at h
    · intro sup a σ n v σ2 m h; simp [traceSupport] at h
    · intro iset sup n vb m h; simp [traverse] at h
    · intro sup acts n vb m h; simp [evalActions] at h
    · intro σg acc n vb m h; simp [solveGroups] at h
  | succ fu ih =>
    obtain ⟨ihT, ihD, ihS, ihV, ihE, ihG⟩ := ih
    refine ⟨?_, ?_, ?_, ?_, ?_, ?_⟩
    · -- trace
      intro s prob σ n v σ2 m h
      unfold trace at h
      split at h
      · exact absurd h (by simp)
      next hbig =>
        split at h
        next hprob =>
          injection h with h'
          injection h' with h1 h2
          injection h2 with h3 h4
          subst h1; subst h3; subst h4
          refine ⟨by omega, ?_⟩
          apply runSpec_entry_const
          intro M
          unfold trace
          rw [if_pos hprob]
        next hprob =>
          cases s with
          | terminal payoff =>
            dsimp only at h
            injection h with h'
            injection h' with h1 h2
            injection h2 with h3 h4
            subst h1; subst h3; subst h4
            refine ⟨by omega, ?_⟩
            apply runSpec_entry_const
            intro M
            unfold trace
            rw [if_neg hprob]
          | chance cs =>
            dsimp only at h
            have hRS := ihD (.chance cs) (chanceDist cs) prob σ (n + 1) v σ2 m h
            refine ⟨by have := hRS.1; omega, ?_⟩
            refine runSpec_entry_call ?_ hRS
            intro M
            unfold trace
            rw [if_neg hprob]
          | decision p obs cs =>
            dsimp only at h
            split at h
            next hp =>
              injection h with h'
              injection h' with h1 h2
              injection h2 with h3 h4
              subst h1; subst h3; subst h4
              refine ⟨by omega, ?_⟩
              apply runSpec_entry_const
              intro M
              unfold trace
              rw [if_neg hprob]
              dsimp only
              rw [if_pos hp]
            next hp =>
              split at h
              · exact absurd h (by simp)
              next st hst =>
                have hRS := ihD (.decision p obs cs)
                  (st (.decision p obs cs)) prob σ (n + 1) v σ2 m h
                refine ⟨by have := hRS.1; omega, ?_⟩
                refine runSpec_entry_call ?_ hRS
                intro M
                unfold trace
                rw [if_neg hprob]
                dsimp only
                rw [if_neg hp, hst]
    · -- traceDist
      intro s dist prob σ n v σ2 m h
      cases dist with
      | nil =>
        unfold traceDist at h
        injection h with h'
        injection h' with h1 h2
        injection h2 with h3 h4
        subst h1; subst h3; subst h4
        apply runSpec_const
        intro M
        rfl
      | cons apr rest =>
        obtain ⟨a, pr⟩ := apr
        unfold traceDist at h
        split at h
        · exact absurd h (by simp)
        next s2 hplay =>
          split at h
          · exact absurd h (by simp)
          next v1 σ1 n1 htr =>
            split at h
            · exact absurd h (by simp)
            next v2 σ2x n2x hrest =>
              injection h with h'
              injection h' with h1 h2
              injection h2 with h3 h4
              subst h1; subst h3; subst h4
              refine runSpec_seq (ihT s2 (pr * prob) σ n v1 σ1 n1 htr).2
                (ihD s rest prob σ1 n1 v2 σ2x n2x hrest) ?_ ?_ ?_
              · intro M hF hG
                simp only [traceDist, hplay, hF, hG]
              · intro M e hFe
                simp only [traceDist, hplay, hFe]
              · intro M hF e hGe
                simp only [traceDist, hplay, hF, hGe]
    · -- traceSupport
      intro sup a σ n v σ2 m h
      cases sup with
      | nil =>
        unfold traceSupport at h
        injection h with h'
        injection h' with h1 h2
        injection h2 with h3 h4
        subst h1; subst h3; subst h4
        apply runSpec_const
        intro M
        rfl
      | cons it rest =>
        unfold traceSupport at h
        split at h
        · exact absurd h (by simp)
        next s2 hplay =>
          split at h
          · exact absurd h (by simp)
          next v1 σ1 n1 htr =>
            split at h
            · exact absurd h (by simp)
            next v2 σ2x n2x hrest =>
              injection h with h'
              injection h' with h1 h2
              injection h2 with h3 h4
              subst h1; subst h3; subst h4
              refine runSpec_seq (ihT s2 it.2 σ n v1 σ1 n1 htr).2
                (ihS rest a σ1 n1 v2 σ2x n2x hrest) ?_ ?_ ?_
              · intro M hF hG
                simp only [traceSupport, hplay, hF, hG]
              · intro M e hFe
                simp only [traceSupport, hplay, hFe]
              · intro M hF e hGe
                simp only [traceSupport, hplay, hF, hGe]
    · -- traverse
      intro iset sup n vb m h
      cases sup with
      | nil => exact absurd h (by simp [traverse])
      | cons s0 tail =>
        unfold traverse at h
        dsimp only at h
        split at h
        · exact absurd h (by simp)
        next values brList n1 hev =>
          split at h
          · exact absurd h (by simp)
          next mx hmx =>
            injection h with h'
            injection h' with h1 h2
            subst h1; subst h2
            refine runSpec_map (ihE (s0 :: tail) (actionsOf s0.1) n
              ((values, brList)) n1 hev) ?_ ?_
            · intro M hE
              simp only [traverse, hE, hmx]
            · intro M e hEe
              simp only [traverse, hEe]
    · -- evalActions
      intro sup acts n vb m h
      cases acts with
      | nil =>
        unfold evalActions at h
        injection h with h'
        injection h' with h1 h2
        subst h1; subst h2
        apply runSpec_const
        intro M
        rfl
      | cons a rest =>
        unfold evalActions at h
        split at h
        · exact absurd h (by simp)
        next v1 σ1 n1 hts =>
          split at h
          · exact absurd h (by simp)
          next v2 br2 n2 hsg =>
            split at h
            · exact absurd h (by simp)
            next vs brs n3 hea =>
              injection h with h'
              injection h' with h1 h2
              subst h1; subst h2
              refine runSpec_seq3 (ihS sup a [] n v1 σ1 n1 hts)
                (ihG σ1 [] n1 ((v2, br2)) n2 hsg)
                (ihE sup rest n2 ((vs, brs)) n3 hea) ?_ ?_ ?_ ?_
              · intro M hF hG hH
                simp only [evalActions, hF, hG, hH]
              · intro M e hFe
                simp only [evalActions, hFe]
              · intro M hF e hGe
                simp only [evalActions, hF, hGe]
              · intro M hF hG e hHe
                simp only [evalActions, hF, hG, hHe]
    · -- solveGroups
      intro σg acc n vb m h
      cases σg with
      | nil =>
        unfold solveGroups at h
        injection h with h'
        injection h' with h1 h2
        subst h1; subst h2
        apply runSpec_const
        intro M
        rfl
      | cons kitems rest =>
        obtain ⟨k, items⟩ := kitems
        unfold solveGroups at h
        split at h
        · exact absurd h (by simp)
        next v1 br1 n1 htv =>
          split at h
          · exact absurd h (by simp)
          next v2 acc2 n2 hsg =>
            injection h with h'
            injection h' with h1 h2
            subst h1; subst h2
            refine runSpec_seq (ihV k items n ((v1, br1)) n1 htv)
              (ihG rest (polUpdate acc br1) n1 ((v2, acc2)) n2 hsg) ?_ ?_ ?_
            · intro M hF hG
              simp only [solveGroups, hF, hG]
            · intro M e hFe
              simp only [solveGroups, hFe]
            · intro M hF e hGe
              simp only [solveGroups, hF, hGe]

/-- C4: the node counter is shared across the whole best-response
computation, every walker invocation (including those made from inside the
solver) bumps it, and the final count `N` of a successful run is the exact
failure threshold: the computation succeeds with an identical result under
every bound of at least `N` walker invocations and fails with
LimitExceeded under every smaller bound. -/
theorem bestResponse_budget (T : Ctx) (fu : ℕ) (g : Node) (v : ℚ)
    (br : Policy) (N : ℕ)
    (h : bestResponse T fu g = .ok (v, br, N)) :
    0 < N ∧
    (∀ M, N ≤ M → bestResponse {T with maxNodes := M} fu g
      = .ok (v, br, N)) ∧
    (∀ M, M < N → bestResponse {T with maxNodes := M} fu g
      = .error .limitExceeded) := by
  unfold bestResponse at h
  split at h
  · exact absurd h (by simp)
  next v1 σ n1 htr =>
    split at h
    · exact absurd h (by simp)
    next v2 br2 n2 hsg =>
      injection h with h'
      injection h' with h1 h2
      injection h2 with h3 h4
      subst h1; subst h3; subst h4
      obtain ⟨hlt, hRS⟩ := (budget_run_spec T fu).1 g 1 [] 0 v1 σ n1 htr
      have hRSg := (budget_run_spec T fu).2.2.2.2.2 σ [] n1 ((v2, br2)) n2 hsg
      have hC : RunSpec (fun M => bestResponse {T with maxNodes := M} fu g) 0
          ((v1 + v2, br2, n2)) n2 := by
        refine runSpec_seq hRS hRSg ?_ ?_ ?_
        · intro M hF hG
          simp only [bestResponse, hF, hG]
        · intro M e hFe
          simp only [bestResponse, hFe]
        · intro M hF e hGe
          simp only [bestResponse, hF, hGe]
      obtain ⟨_, hok, herr⟩ := hC
      refine ⟨by have := hRSg.1; omega, ?_, ?_⟩
      · intro M hM
        exact hok M (Or.inl hM)
      · intro M hM
        exact herr M hM (by have := hRSg.1; omega)

/-- C4 witness: the matching-pennies best response makes exactly 7 walker
calls, so it succeeds unchanged at bound 7 and fails with LimitExceeded at
bound 6. -/
theorem bestResponse_budget_witness :
    bestResponse ⟨0, 2, [stEmpty, stUnif01], 7⟩ 100 penniesRoot
      = .ok (0, [(5, [1/2, 1/2])], 7) ∧
    bestResponse ⟨0, 2, [stEmpty, stUnif01], 6⟩ 100 penniesRoot
      = .error .limitExceeded := by
  have h := bestResponse_budget penniesCtx 100 penniesRoot 0
    [(5, [1/2, 1/2])] 7 (by with_unfolding_all rfl)
  exact ⟨h.2.1 7 le_rfl, h.2.2 6 (by omega)⟩

/-! Claim C6. -/

mutual
/-- Expected payoff to `T.player` when every player, the responding player
included, follows the fixed profile `T.strategies`; fuel-indexed, `none` on
exhaustion, a missing strategy entry or an invalid play. -/
def expValueF (T : Ctx) : ℕ → Node → Option ℚ
  | 0, _ => none
  | _+1, .terminal payoff => some (payoff.getD T.player 0)
  | fu+1, .chance cs => expDistF T fu (.chance cs) (chanceDist cs)
  | fu+1, .decision p obs cs =>
    match T.strategies.get? p with
    | none => none
    | some st =>
      expDistF T fu (.decision p obs cs) (st (.decision p obs cs))
termination_by structural fu => fu

/-- Distribution step of the expected value: sum over `(action, pr)` pairs
of `pr` times the successor's expected value. -/
def expDistF (T : Ctx) : ℕ → Node → List (ℕ × ℚ) → Option ℚ
  | 0, _, _ => none
  | _+1, _, [] => some 0
  | fu+1, s, (a, pr) :: rest =>
    match play s a with
    | none => none
    | some c =>
      match expValueF T fu c with
      | none => none
      | some q =>
        match expDistF T fu s rest with
        | none => none
        | some r => some (pr * q + r)
termination_by structural fu => fu
end

mutual
/-- Validity of a strategy profile over a game tree for the purposes of the
best-response comparison: at every decision node of the responding player
the profile's policy must exist, coincide with the observation-measurable
policy map `pm` at the node's observation key, be nonnegative, sum to 1,
and play only legal actions; all children of every node are checked
recursively. -/
def validF (T : Ctx) (pm : ℕ → List (ℕ × ℚ)) : ℕ → Node → Bool
  | 0, _ => false
  | _+1, .terminal _ => true
  | fu+1, .chance cs => validListF T pm fu (cs.map fun c => c.2.2)
  | fu+1, .decision p obs cs =>
    (if p = T.player then
      match T.strategies.get? p with
      | none => false
      | some st =>
        decide (st (.decision p obs cs) = pm obs) &&
        ((pm obs).all fun apr =>
          decide (0 ≤ apr.2) && (cs.map fun c => c.1).contains apr.1) &&
        decide (((pm obs).map fun apr => apr.2).sum = 1)
    else true) &&
    validListF T pm fu (cs.map fun c => c.2)
termination_by structural fu => fu

/-- Child list step of the validity check. -/
def validListF (T : Ctx) (pm : ℕ → List (ℕ × ℚ)) : ℕ → List Node → Bool
  | 0, _ => false
  | _+1, [] => true
  | fu+1, c :: rest => validF T pm fu c && validListF T pm fu rest
termination_by structural fu => fu
end

/-- A node is valid when the checker accepts it at some fuel. -/
def Valid (T : Ctx) (pm : ℕ → List (ℕ × ℚ)) (s : Node) : Prop :=
  ∃ fu, validF T pm fu s = true

/-- Successor as a total function; the default is immaterial because every
use is guarded by a successful play. -/
def playD (s : Node) (a : ℕ) : Node := (play s a).getD (.terminal [])

/-- Expected value as a total function, defaulting to 0; meaningful under
an `isSome` guard. -/
def evD (T : Ctx) (F : ℕ) (s : Node) : ℚ := (expValueF T F s).getD 0

/-- Distribution value as a total function, defaulting to 0. -/
def edD (T : Ctx) (F : ℕ) (s : Node) (d : List (ℕ × ℚ)) : ℚ :=
  (expDistF T F s d).getD 0

/-- Reach-weighted expected value of a list of support items. -/
def itemsValD (T : Ctx) (F : ℕ) (items : List SupportItem) : ℚ :=
  (items.map fun it => it.2 * evD T F it.1).sum

/-- Total reach-weighted expected value of a support dictionary. -/
def suppValD (T : Ctx) (F : ℕ) (σ : Supports) : ℚ :=
  (σ.map fun e => itemsValD T F e.2).sum

/-- Reach-weighted expected continuation value of a group played through
one action. -/
def actValD (T : Ctx) (F : ℕ) (sup : List SupportItem) (a : ℕ) : ℚ :=
  (sup.map fun it => it.2 * evD T F (playD it.1 a)).sum

/-- Children of a node, as nodes. -/
def childNodes : Node → List Node
  | .terminal _ => []
  | .chance cs => cs.map fun c => c.2.2
  | .decision _ _ cs => cs.map fun c => c.2

/-- Boolean duplicate-freedom of a key list. -/
def nodupB : List ℕ → Bool
  | [] => true
  | a :: rest => !(rest.contains a) && nodupB rest

/-- The keys of a support dictionary are pairwise distinct. -/
def keysNodup (σ : Supports) : Bool := nodupB (σ.map fun e => e.1)

/-- Every state stored in the support dictionary has a defined expected
value at fuel `F`. -/
def SuppDef (T : Ctx) (F : ℕ) (σ : Supports) : Prop :=
  ∀ ki ∈ σ, ∀ it ∈ ki.2, (expValueF T F it.1).isSome

/-- Every state stored in the support dictionary is a valid decision node
of the responding player carrying its key as observation. -/
def SuppInv (T : Ctx) (pm : ℕ → List (ℕ × ℚ)) (σ : Supports) : Prop :=
  ∀ ki ∈ σ, ∀ it ∈ ki.2,
    (∃ cs, it.1 = Node.decision T.player ki.1 cs) ∧ Valid T pm it.1

/-- Expected values are stable under extra fuel. -/
theorem expValueF_mono (T : Ctx) : ∀ fu,
    (∀ s q, expValueF T fu s = some q → expValueF T (fu + 1) s = some q) ∧
    (∀ s d q, expDistF T fu s d = some q → expDistF T (fu + 1) s d = some q) := by
  intro fu
  induction fu with
  | zero =>
    constructor
    · intro s q h; cases h
    · intro s d q h; cases h
  | succ fu ih =>
    obtain ⟨ihV, ihD⟩ := ih
    constructor
    · intro s q h
      cases s with
      | terminal payoff => exact h
      | chance cs => exact ihD _ _ _ h
      | decision p obs cs =>
        unfold expValueF at h ⊢
        cases hst : T.strategies.get? p with
        | none => rw [hst] at h; simp at h
        | some st =>
          rw [hst] at h
          dsimp only at h ⊢
          exact ihD _ _ _ h
    · intro s d q h
      cases d with
      | nil => exact h
      | cons apr rest =>
        obtain ⟨a, pr⟩ := apr
        unfold expDistF at h ⊢
        cases hplay : play s a with
        | none => rw [hplay] at h; simp at h
        | some c =>
          rw [hplay] at h
          dsimp only at h ⊢
          cases hv : expValueF T fu c with
          | none => rw [hv] at h; simp at h
          | some qc =>
            rw [hv] at h
            dsimp only at h
            rw [ihV _ _ hv]
            cases hr : expDistF T fu s rest with
            | none => rw [hr] at h; simp at h
            | some r =>
              rw [hr] at h
              dsimp only at h
              rw [ihD _ _ _ hr]
              exact h

/-- Expected values are stable under any larger fuel. -/
theorem expValueF_le_mono (T : Ctx) {f f' : ℕ} (hle : f ≤ f') :
    (∀ s q, expValueF T f s = some q → expValueF T f' s = some q) ∧
    (∀ s d q, expDistF T f s d = some q → expDistF T f' s d = some q) := by
  induction f' with
  | zero =>
    obtain rfl : f = 0 := Nat.le_zero.mp hle
    exact ⟨fun s q h => h, fun s d q h => h⟩
  | succ f' ih =>
    rcases Nat.lt_or_ge f (f' + 1) with hlt | hge
    · have hle' : f ≤ f' := by omega
      exact ⟨fun s q h => (expValueF_mono T f').1 s q ((ih hle').1 s q h),
        fun s d q h => (expValueF_mono T f').2 s d q ((ih hle').2 s d q h)⟩
    · obtain rfl : f = f' + 1 := by omega
      exact ⟨fun s q h => h, fun s d q h => h⟩

/-- Terminal expected value. -/
theorem evD_terminal {T : Ctx} {F : ℕ} {payoff : List ℚ}
    (h : (expValueF T F (.terminal payoff)).isSome) :
    evD T F (.terminal payoff) = payoff.getD T.player 0 := by
  cases F with
  | zero => simp [expValueF] at h
  | succ F => rfl

/-- Chance expected value defers to the chance distribution. -/
theorem expValueF_chance_parts {T : Ctx} {F : ℕ} {cs : List (ℕ × ℚ × Node)}
    (h : (expValueF T F (.chance cs)).isSome) :
    (expDistF T F (.chance cs) (chanceDist cs)).isSome ∧
    evD T F (.chance cs) = edD T F (.chance cs) (chanceDist cs) := by
  cases F with
  | zero => simp [expValueF] at h
  | succ F =>
    have heq : expValueF T (F + 1) (.chance cs)
        = expDistF T F (.chance cs) (chanceDist cs) := rfl
    rw [heq] at h
    obtain ⟨q, hq⟩ := Option.isSome_iff_exists.mp h
    have hq2 := (expValueF_le_mono T (Nat.le_succ F)).2 _ _ _ hq
    constructor
    · rw [hq2]; rfl
    · unfold evD edD
      rw [heq, hq, hq2]

/-- Decision expected value defers to the acting player's policy. -/
theorem expValueF_decision_parts {T : Ctx} {F : ℕ} {p obs : ℕ}
    {cs : List (ℕ × Node)} {st : Strat}
    (hst : T.strategies.get? p = some st)
    (h : (expValueF T F (.decision p obs cs)).isSome) :
    (expDistF T F (.decision p obs cs) (st (.decision p obs cs))).isSome ∧
    evD T F (.decision p obs cs)
      = edD T F (.decision p obs cs) (st (.decision p obs cs)) := by
  cases F with
  | zero => simp [expValueF] at h
  | succ F =>
    have heq : expValueF T (F + 1) (.decision p obs cs)
        = expDistF T F (.decision p obs cs) (st (.decision p obs cs)) := by
      unfold expValueF
      rw [hst]
    rw [heq] at h
    obtain ⟨q, hq⟩ := Option.isSome_iff_exists.mp h
    have hq2 := (expValueF_le_mono T (Nat.le_succ F)).2 _ _ _ hq
    constructor
    · rw [hq2]; rfl
    · unfold evD edD
      rw [heq, hq, hq2]

/-- Cons step of the distribution value. -/
theorem expDistF_cons_parts {T : Ctx} {F : ℕ} {s : Node} {a : ℕ} {pr : ℚ}
    {rest : List (ℕ × ℚ)}
    (h : (expDistF T F s ((a, pr) :: rest)).isSome) :
    ∃ c, play s a = some c ∧ (expValueF T F c).isSome ∧
      (expDistF T F s rest).isSome ∧
      edD T F s ((a, pr) :: rest) = pr * evD T F c + edD T F s rest := by
  cases F with
  | zero => simp [expDistF] at h
  | succ F =>
    unfold expDistF at h
    cases hplay : play s a with
    | none => rw [hplay] at h; simp at h
    | some c =>
      rw [hplay] at h
      dsimp only at h
      cases hv : expValueF T F c with
      | none => rw [hv] at h; simp at h
      | some qc =>
        rw [hv] at h
        dsimp only at h
        cases hr : expDistF T F s rest with
        | none => rw [hr] at h; simp at h
        | some r =>
          have hv2 := (expValueF_le_mono T (Nat.le_succ F)).1 _ _ hv
          have hr2 := (expValueF_le_mono T (Nat.le_succ F)).2 _ _ _ hr
          refine ⟨c, rfl, ?_, ?_, ?_⟩
          · rw [hv2]; rfl
          · rw [hr2]; rfl
          · unfold edD evD
            rw [hv2, hr2]
            simp only [expDistF, hplay, hv, hr]
            rfl

/-- A member of a checked child list is valid. -/
theorem validListF_mem {T : Ctx} {pm : ℕ → List (ℕ × ℚ)} :
    ∀ {f : ℕ} {l : List Node} {c : Node}, validListF T pm f l = true →
      c ∈ l → Valid T pm c := by
  intro f
  induction f with
  | zero => intro l c h _; simp [validListF] at h
  | succ f ih =>
    intro l c h hc
    cases l with
    | nil => cases hc
    | cons c0 rest =>
      unfold validListF at h
      rw [Bool.and_eq_true] at h
      rcases List.mem_cons.mp hc with rfl | hc
      · exact ⟨f, h.1⟩
      · exact ih h.2 hc

/-- Children of a valid node are valid. -/
theorem valid_child {T : Ctx} {pm : ℕ → List (ℕ × ℚ)} {s c : Node}
    (hv : Valid T pm s) (hc : c ∈ childNodes s) : Valid T pm c := by
  obtain ⟨f, hf⟩ := hv
  cases f with
  | zero => simp [validF] at hf
  | succ f =>
    cases s with
    | terminal payoff => simp [childNodes] at hc
    | chance cs =>
      unfold validF at hf
      exact validListF_mem hf hc
    | decision p obs cs =>
      unfold validF at hf
      rw [Bool.and_eq_true] at hf
      exact validListF_mem hf.2 hc

/-- A played successor is a child. -/
theorem play_mem_childNodes {s : Node} {a : ℕ} {c : Node}
    (h : play s a = some c) : c ∈ childNodes s := by
  cases s with
  | terminal payoff => simp [play] at h
  | chance cs =>
    unfold play at h
    obtain ⟨e, he, hec⟩ := Option.map_eq_some'.mp h
    exact hec ▸ List.mem_map_of_mem _ (List.mem_of_find?_eq_some he)
  | decision p obs cs =>
    unfold play at h
    obtain ⟨e, he, hec⟩ := Option.map_eq_some'.mp h
    exact hec ▸ List.mem_map_of_mem _ (List.mem_of_find?_eq_some he)

/-- Policy facts provided by validity at a responding-player decision
node: the strategy entry exists, is observation-measurable through `pm`,
is a nonnegative distribution summing to 1, and plays legal actions. -/
theorem valid_player_facts {T : Ctx} {pm : ℕ → List (ℕ × ℚ)} {obs : ℕ}
    {cs : List (ℕ × Node)}
    (hv : Valid T pm (.decision T.player obs cs)) :
    ∃ st, T.strategies.get? T.player = some st ∧
      st (.decision T.player obs cs) = pm obs ∧
      (∀ apr ∈ pm obs, 0 ≤ apr.2 ∧ apr.1 ∈ cs.map fun c => c.1) ∧
      ((pm obs).map fun apr => apr.2).sum = 1 := by
  obtain ⟨f, hf⟩ := hv
  cases f with
  | zero => simp [validF] at hf
  | succ f =>
    unfold validF at hf
    rw [if_pos rfl] at hf
    rw [Bool.and_eq_true] at hf
    obtain ⟨h1, _⟩ := hf
    cases hst : T.strategies.get? T.player with
    | none => rw [hst] at h1; cases h1
    | some st =>
      rw [hst] at h1
      dsimp only at h1
      rw [Bool.and_eq_true, Bool.and_eq_true] at h1
      obtain ⟨⟨hpm, hall⟩, hsum⟩ := h1
      refine ⟨st, rfl, by simpa using hpm, ?_, by simpa using hsum⟩
      intro apr hapr
      have hx := List.all_eq_true.mp hall apr hapr
      rw [Bool.and_eq_true] at hx
      constructor
      · simpa using hx.1
      · simpa using hx.2

/-- Appending a support item under a key absent from the head commutes
with the head. -/
theorem addSupport_cons_ne {e : ℕ × List SupportItem} {σ : Supports}
    {k : ℕ} {it : SupportItem} (hne : e.1 ≠ k) :
    addSupport (e :: σ) k it = e :: addSupport σ k it := by
  unfold addSupport
  have hbe : (e.1 == k) = false := by simpa using hne
  by_cases hany : (σ.any fun x => x.1 == k) = true
  · simp [List.any_cons, hbe, hany, hne]
  · simp [List.any_cons, hbe, hany, hne]

/-- Appending a support item under the head's key extends the head's
items, provided the key appears nowhere else. -/
theorem addSupport_cons_eq {e : ℕ × List SupportItem} {σ : Supports}
    {it : SupportItem} (hnk : ∀ x ∈ σ, x.1 ≠ e.1) :
    addSupport (e :: σ) e.1 it = (e.1, e.2 ++ [it]) :: σ := by
  unfold addSupport
  have hany : ((e :: σ).any fun x => x.1 == e.1) = true := by simp
  rw [if_pos hany]
  simp only [List.map_cons, beq_self_eq_true, if_pos rfl]
  congr 1
  calc σ.map (fun x => if x.1 == e.1 then (x.1, x.2 ++ [it]) else x)
      = σ.map id := List.map_congr_left fun x hx => by simp [hnk x hx]
    _ = σ := List.map_id σ

/-- Head decomposition of a duplicate-free key list. -/
theorem keysNodup_cons {e : ℕ × List SupportItem} {σ : Supports}
    (h : keysNodup (e :: σ) = true) :
    ((σ.map fun x => x.1).contains e.1) = false ∧ keysNodup σ = true := by
  unfold keysNodup at h
  rw [List.map_cons] at h
  simp only [nodupB] at h
  rw [Bool.and_eq_true, Bool.not_eq_true'] at h
  exact ⟨h.1, h.2⟩

/-- The key list of `addSupport` is either unchanged or extended by a key
that was absent. -/
theorem keys_addSupport_cases (σ : Supports) (k : ℕ) (it : SupportItem) :
    (addSupport σ k it).map (fun e => e.1) = σ.map (fun e => e.1) ∨
    ((addSupport σ k it).map (fun e => e.1)
        = σ.map (fun e => e.1) ++ [k] ∧ ∀ e ∈ σ, e.1 ≠ k) := by
  unfold addSupport
  split
  · left
    rw [List.map_map]
    refine List.map_congr_left fun e _ => ?_
    by_cases hbe : (e.1 == k) = true
    · simp [Function.comp, hbe]
    · simp [Function.comp, hbe]
  next hany =>
    right
    constructor
    · simp
    · intro e he hk
      exact hany (List.any_eq_true.mpr ⟨e, he, by simp [hk]⟩)

/-- Appending a fresh key preserves duplicate freedom. -/
theorem nodupB_append_single {l : List ℕ} {k : ℕ} (h : nodupB l = true)
    (hk : ∀ x ∈ l, x ≠ k) : nodupB (l ++ [k]) = true := by
  induction l with
  | nil => rfl
  | cons a l ih =>
    simp only [nodupB] at h
    rw [List.cons_append]
    simp only [nodupB]
    rw [Bool.and_eq_true, Bool.not_eq_true'] at h
    rw [Bool.and_eq_true, Bool.not_eq_true']
    constructor
    · have ha : a ∉ l := by simpa using h.1
      have hak : a ≠ k := hk a (List.mem_cons_self a l)
      simp [ha, hak]
    · exact ih h.2 fun x hx => hk x (List.mem_cons_of_mem a hx)

/-- `addSupport` preserves duplicate-free keys. -/
theorem keysNodup_addSupport {σ : Supports} {k : ℕ} {it : SupportItem}
    (h : keysNodup σ = true) : keysNodup (addSupport σ k it) = true := by
  rcases keys_addSupport_cases σ k it with hc | ⟨hc, hk⟩
  · unfold keysNodup
    rw [hc]
    exact h
  · unfold keysNodup
    rw [hc]
    refine nodupB_append_single h ?_
    intro x hx
    obtain ⟨e, he, rfl⟩ := List.mem_map.mp hx
    exact hk e he

/-- `addSupport` preserves definedness of stored expected values. -/
theorem suppDef_addSupport {T : Ctx} {F : ℕ} {σ : Supports} {k : ℕ}
    {it : SupportItem} (h : SuppDef T F σ)
    (hit : (expValueF T F it.1).isSome) :
    SuppDef T F (addSupport σ k it) := by
  unfold addSupport
  split
  · intro ki hki it2 hit2
    obtain ⟨e, he, hke⟩ := List.mem_map.mp hki
    by_cases hbe : (e.1 == k) = true
    · rw [if_pos hbe] at hke
      subst hke
      rcases List.mem_append.mp hit2 with hm | hm
      · exact h e he it2 hm
      · rw [List.mem_singleton.mp hm]
        exact hit
    · rw [if_neg hbe] at hke
      subst hke
      exact h e he it2 hit2
  · intro ki hki it2 hit2
    rcases List.mem_append.mp hki with hm | hm
    · exact h ki hm it2 hit2
    · have hki2 : ki = (k, [it]) := List.mem_singleton.mp hm
      subst hki2
      rw [List.mem_singleton.mp hit2]
      exact hit

/-- `addSupport` preserves the structural invariant when the added item is
a valid responding-player decision node stored under its observation
key. -/
theorem suppInv_addSupport {T : Ctx} {pm : ℕ → List (ℕ × ℚ)} {σ : Supports}
    {k : ℕ} {it : SupportItem} (h : SuppInv T pm σ)
    (hsh : ∃ cs, it.1 = Node.decision T.player k cs)
    (hvd : Valid T pm it.1) : SuppInv T pm (addSupport σ k it) := by
  unfold addSupport
  split
  · intro ki hki it2 hit2
    obtain ⟨e, he, hke⟩ := List.mem_map.mp hki
    by_cases hbe : (e.1 == k) = true
    · rw [if_pos hbe] at hke
      subst hke
      rcases List.mem_append.mp hit2 with hm | hm
      · exact h e he it2 hm
      · rw [List.mem_singleton.mp hm]
        have hek : e.1 = k := by simpa using hbe
        refine ⟨?_, hvd⟩
        show ∃ cs, it.1 = Node.decision T.player e.1 cs
        rw [hek]
        exact hsh
    · rw [if_neg hbe] at hke
      subst hke
      exact h e he it2 hit2
  · intro ki hki it2 hit2
    rcases List.mem_append.mp hki with hm | hm
    · exact h ki hm it2 hit2
    · have hki2 : ki = (k, [it]) := List.mem_singleton.mp hm
      subst hki2
      rw [List.mem_singleton.mp hit2]
      exact ⟨hsh, hvd⟩

/-- Cons step of the support valuation. -/
theorem suppValD_cons {T : Ctx} {F : ℕ} {e : ℕ × List SupportItem}
    {σ : Supports} :
    suppValD T F (e :: σ) = itemsValD T F e.2 + suppValD T F σ := by
  simp [suppValD]

/-- Append step of the item valuation. -/
theorem itemsValD_append {T : Ctx} {F : ℕ} {l1 l2 : List SupportItem} :
    itemsValD T F (l1 ++ l2) = itemsValD T F l1 + itemsValD T F l2 := by
  simp [itemsValD]

/-- `addSupport` adds the item's reach-weighted value to the support
valuation, provided keys are duplicate-free. -/
theorem suppValD_addSupport {T : Ctx} {F : ℕ} {σ : Supports} {k : ℕ}
    {it : SupportItem} (hknd : keysNodup σ = true) :
    suppValD T F (addSupport σ k it)
      = suppValD T F σ + it.2 * evD T F it.1 := by
  induction σ with
  | nil =>
    show suppValD T F (addSupport [] k it) = _
    simp [addSupport, suppValD, itemsValD]
  | cons e σ ih =>
    obtain ⟨hcont, htail⟩ := keysNodup_cons hknd
    by_cases he : e.1 = k
    · have hnk : ∀ x ∈ σ, x.1 ≠ e.1 := by
        intro x hx hxk
        have hmem : e.1 ∈ σ.map fun y => y.1 :=
          hxk ▸ List.mem_map_of_mem _ hx
        have hcc : (σ.map fun y => y.1).contains e.1 = true := by
          simpa using hmem
        rw [hcont] at hcc
        cases hcc
      rw [← he, addSupport_cons_eq hnk]
      rw [suppValD_cons, suppValD_cons, itemsValD_append]
      have : itemsValD T F [it] = it.2 * evD T F it.1 := by
        simp [itemsValD]
      rw [this]
      ring
    · rw [addSupport_cons_ne he, suppValD_cons, suppValD_cons, ih htail]
      ring

/-- Walk decomposition: a successful walker run preserves duplicate-free
keys, definedness and the structural invariant of the support sink, and
its returned value plus the valuation of the collected items equals the
reach-weighted expected value of the walked state under the fixed
profile. -/
theorem trace_decomposition (T : Ctx) (pm : ℕ → List (ℕ × ℚ)) (F : ℕ) :
    ∀ fu,
    (∀ s prob σ n v σ2 m, trace T fu s prob σ n = .ok (v, σ2, m) →
      Valid T pm s → (expValueF T F s).isSome →
      keysNodup σ = true → SuppDef T F σ → SuppInv T pm σ →
      keysNodup σ2 = true ∧ SuppDef T F σ2 ∧ SuppInv T pm σ2 ∧
      v + suppValD T F σ2 = prob * evD T F s + suppValD T F σ) ∧
    (∀ s dist prob σ n v σ2 m,
      traceDist T fu s dist prob σ n = .ok (v, σ2, m) →
      (∀ a c, play s a = some c → Valid T pm c) →
      (expDistF T F s dist).isSome →
      keysNodup σ = true → SuppDef T F σ → SuppInv T pm σ →
      keysNodup σ2 = true ∧ SuppDef T F σ2 ∧ SuppInv T pm σ2 ∧
      v + suppValD T F σ2 = prob * edD T F s dist + suppValD T F σ) ∧
    (∀ sup a σ n v σ2 m, traceSupport T fu sup a σ n = .ok (v, σ2, m) →
      (∀ it ∈ sup, Valid T pm it.1) →
      (∀ it ∈ sup, (expValueF T F (playD it.1 a)).isSome) →
      keysNodup σ = true → SuppDef T F σ → SuppInv T pm σ →
      keysNodup σ2 = true ∧ SuppDef T F σ2 ∧ SuppInv T pm σ2 ∧
      v + suppValD T F σ2 = actValD T F sup a + suppValD T F σ) := by
  intro fu
  induction fu with
  | zero =>
    refine ⟨?_, ?_, ?_⟩
    · intro s prob σ n v σ2 m h
      simp [trace] at h
    · intro s dist prob σ n v σ2 m h
      simp [traceDist] at h
    · intro sup a σ n v σ2 m h
      simp [traceSupport] at h
  | succ fu ih =>
    obtain ⟨ihT, ihD, ihS⟩ := ih
    refine ⟨?_, ?_, ?_⟩
    · intro s prob σ n v σ2 m h hval hev hknd hdef hinv
      unfold trace at h
      split at h
      · exact absurd h (by simp)
      next hbig =>
        split at h
        next hprob =>
          injection h with h2
          injection h2 with h3 h4
          injection h4 with h5 h6
          subst h3; subst h5
          exact ⟨hknd, hdef, hinv, by rw [hprob]; ring⟩
        next hprob =>
          cases s with
          | terminal payoff =>
            dsimp only at h
            injection h with h2
            injection h2 with h3 h4
            injection h4 with h5 h6
            subst h3; subst h5
            refine ⟨hknd, hdef, hinv, ?_⟩
            rw [evD_terminal hev]
            ring
          | chance cs =>
            dsimp only at h
            obtain ⟨hed, hevd⟩ := expValueF_chance_parts hev
            have hvch : ∀ a c, play (.chance cs) a = some c → Valid T pm c :=
              fun a c hp => valid_child hval (play_mem_childNodes hp)
            have r := ihD _ _ prob σ (n + 1) v σ2 m h hvch hed hknd hdef hinv
            exact ⟨r.1, r.2.1, r.2.2.1, by rw [hevd]; exact r.2.2.2⟩
          | decision p obs cs =>
            dsimp only at h
            split at h
            next hp =>
              injection h with h2
              injection h2 with h3 h4
              injection h4 with h5 h6
              subst h3; subst h5
              subst hp
              refine ⟨keysNodup_addSupport hknd,
                suppDef_addSupport hdef hev,
                suppInv_addSupport hinv ⟨cs, rfl⟩ hval, ?_⟩
              rw [suppValD_addSupport hknd]
              ring
            next hp =>
              split at h
              · exact absurd h (by simp)
              next st hst =>
                obtain ⟨hed, hevd⟩ := expValueF_decision_parts hst hev
                have hvch : ∀ a c, play (.decision p obs cs) a = some c →
                    Valid T pm c :=
                  fun a c hp2 => valid_child hval (play_mem_childNodes hp2)
                have r := ihD _ _ prob σ (n + 1) v σ2 m h hvch hed hknd hdef
                  hinv
                exact ⟨r.1, r.2.1, r.2.2.1, by rw [hevd]; exact r.2.2.2⟩
    · intro s dist prob σ n v σ2 m h hvch hed hknd hdef hinv
      cases dist with
      | nil =>
        unfold traceDist at h
        injection h with h2
        injection h2 with h3 h4
        injection h4 with h5 h6
        subst h3; subst h5
        refine ⟨hknd, hdef, hinv, ?_⟩
        have h0 : edD T F s [] = 0 := by
          cases F with
          | zero => simp [expDistF] at hed
          | succ F => rfl
        rw [h0]
        ring
      | cons apr rest =>
        obtain ⟨a, pr⟩ := apr
        unfold traceDist at h
        split at h
        · exact absurd h (by simp)
        next c hplay =>
          split at h
          · exact absurd h (by simp)
          next v1 σ1 n1 htr =>
            split at h
            · exact absurd h (by simp)
            next v2 σ2x n2x hrest =>
              injection h with h2
              injection h2 with h3 h4
              injection h4 with h5 h6
              subst h3; subst h5
              obtain ⟨c2, hplay2, hevc, hedr, hsum⟩ := expDistF_cons_parts hed
              rw [hplay] at hplay2
              injection hplay2 with hc
              subst hc
              have r1 := ihT c (pr * prob) σ n v1 σ1 n1 htr
                (hvch a c hplay) hevc hknd hdef hinv
              have r2 := ihD s rest prob σ1 n1 v2 σ2x n2x hrest hvch hedr
                r1.1 r1.2.1 r1.2.2.1
              refine ⟨r2.1, r2.2.1, r2.2.2.1, ?_⟩
              rw [hsum]
              linear_combination r1.2.2.2 + r2.2.2.2
    · intro sup a σ n v σ2 m h hitv hdefit hknd hdef hinv
      cases sup with
      | nil =>
        unfold traceSupport at h
        injection h with h2
        injection h2 with h3 h4
        injection h4 with h5 h6
        subst h3; subst h5
        refine ⟨hknd, hdef, hinv, ?_⟩
        show (0 : ℚ) + suppValD T F σ = actValD T F [] a + suppValD T F σ
        simp [actValD]
      | cons it rest =>
        unfold traceSupport at h
        split at h
        · exact absurd h (by simp)
        next c hplay =>
          split at h
          · exact absurd h (by simp)
          next v1 σ1 n1 htr =>
            split at h
            · exact absurd h (by simp)
            next v2 σ2x n2x hrest =>
              injection h with h2
              injection h2 with h3 h4
              injection h4 with h5 h6
              subst h3; subst h5
              have hvc : Valid T pm c :=
                valid_child (hitv it (List.mem_cons_self it rest))
                  (play_mem_childNodes hplay)
              have hevc : (expValueF T F c).isSome := by
                have hx := hdefit it (List.mem_cons_self it rest)
                unfold playD at hx
                rw [hplay] at hx
                exact hx
              have r1 := ihT c it.2 σ n v1 σ1 n1 htr hvc hevc hknd hdef hinv
              have r2 := ihS rest a σ1 n1 v2 σ2x n2x hrest
                (fun x hx => hitv x (List.mem_cons_of_mem it hx))
                (fun x hx => hdefit x (List.mem_cons_of_mem it hx))
                r1.1 r1.2.1 r1.2.2.1
              refine ⟨r2.1, r2.2.1, r2.2.2.1, ?_⟩
              have hact : actValD T F (it :: rest) a
                  = it.2 * evD T F c + actValD T F rest a := by
                unfold actValD
                rw [List.map_cons, List.sum_cons]
                congr 2
                unfold playD
                rw [hplay]
                rfl
              rw [hact]
              linear_combination r1.2.2.2 + r2.2.2.2

/-- The distribution value is the weighted sum of successor values, and
every listed action plays to a successor with a defined value. -/
theorem expDistF_sum {T : Ctx} {s : Node} {F : ℕ} :
    ∀ {d : List (ℕ × ℚ)}, (expDistF T F s d).isSome →
      (∀ apr ∈ d, (play s apr.1).isSome ∧
        (expValueF T F (playD s apr.1)).isSome) ∧
      edD T F s d
        = (d.map fun apr => apr.2 * evD T F (playD s apr.1)).sum := by
  intro d
  induction d with
  | nil =>
    intro h
    refine ⟨fun apr hapr => absurd hapr (List.not_mem_nil apr), ?_⟩
    have h0 : edD T F s [] = 0 := by
      cases F with
      | zero => simp [expDistF] at h
      | succ F => rfl
    simp [h0]
  | cons apr rest ih =>
    intro h
    obtain ⟨a, pr⟩ := apr
    obtain ⟨c, hplay, hevc, hedr, hsum⟩ := expDistF_cons_parts h
    have hpd : playD s a = c := by
      unfold playD
      rw [hplay]
      rfl
    refine ⟨?_, ?_⟩
    · intro x hx
      rcases List.mem_cons.mp hx with rfl | hx
      · exact ⟨by rw [hplay]; rfl, by rw [hpd]; exact hevc⟩
      · exact (ih hedr).1 x hx
    · rw [hsum, List.map_cons, List.sum_cons, (ih hedr).2, hpd]

/-- Pointwise sums split. -/
theorem sum_map_add_pair {α : Type} (l : List α) (f g : α → ℚ) :
    (l.map fun x => f x + g x).sum = (l.map f).sum + (l.map g).sum := by
  induction l with
  | nil => simp
  | cons x l ih => simp [ih]; ring

/-- Exchange of a double weighted sum over items and actions. -/
theorem sum_swap_mul (sup : List SupportItem) (d : List (ℕ × ℚ))
    (g : SupportItem → ℕ → ℚ) :
    (sup.map fun it => it.2 * (d.map fun apr => apr.2 * g it apr.1).sum).sum
      = (d.map fun apr =>
          apr.2 * (sup.map fun it => it.2 * g it apr.1).sum).sum := by
  induction sup with
  | nil =>
    rw [List.map_nil, List.sum_nil]
    symm
    apply List.sum_eq_zero
    intro x hx
    obtain ⟨apr, _, rfl⟩ := List.mem_map.mp hx
    simp
  | cons it sup ih =>
    have h1 : (d.map fun apr =>
        apr.2 * ((it :: sup).map fun it2 => it2.2 * g it2 apr.1).sum).sum
        = (d.map fun apr => apr.2 * (it.2 * g it apr.1)
            + apr.2 * (sup.map fun it2 => it2.2 * g it2 apr.1).sum).sum := by
      refine congrArg List.sum (List.map_congr_left fun apr _ => ?_)
      rw [List.map_cons, List.sum_cons]
      ring
    rw [List.map_cons, List.sum_cons, ih, h1, sum_map_add_pair]
    congr 1
    rw [← List.sum_map_mul_left]
    refine congrArg List.sum (List.map_congr_left fun apr _ => ?_)
    ring

/-- A convex combination of values bounded by `c` is bounded by `c`. -/
theorem sum_weighted_le {d : List (ℕ × ℚ)} {g : ℕ → ℚ} {c : ℚ}
    (hw : ∀ apr ∈ d, 0 ≤ apr.2) (hg : ∀ apr ∈ d, g apr.1 ≤ c)
    (hs : (d.map fun apr => apr.2).sum = 1) :
    (d.map fun apr => apr.2 * g apr.1).sum ≤ c := by
  have h1 : (d.map fun apr => apr.2 * g apr.1).sum
      ≤ (d.map fun apr => apr.2 * c).sum := by
    apply List.sum_le_sum
    intro apr hapr
    exact mul_le_mul_of_nonneg_left (hg apr hapr) (hw apr hapr)
  have h2 : (d.map fun apr => apr.2 * c).sum = c := by
    rw [List.sum_map_mul_right, hs, one_mul]
  linarith

/-- The solver dominates the fixed profile: the value of every solved
group is at least the reach-weighted expected value its items obtain when
the responding player follows the fixed, observation-measurable profile,
and the per-action loop provides a dominating entry for every legal action
with defined continuation values. -/
theorem solver_ge_profile (T : Ctx) (pm : ℕ → List (ℕ × ℚ)) (F : ℕ) :
    ∀ fu,
    (∀ iset sup n v br m,
      traverse T fu iset sup n = .ok ((v, br), m) →
      (∀ it ∈ sup, (∃ cs, it.1 = Node.decision T.player iset cs)
        ∧ Valid T pm it.1) →
      (∀ it ∈ sup, (expValueF T F it.1).isSome) →
      itemsValD T F sup ≤ v) ∧
    (∀ sup acts n vb brs m,
      evalActions T fu sup acts n = .ok ((vb, brs), m) →
      (∀ it ∈ sup, Valid T pm it.1) →
      ∀ a ∈ acts, (∀ it ∈ sup, (expValueF T F (playD it.1 a)).isSome) →
        ∃ w ∈ vb, actValD T F sup a ≤ w) ∧
    (∀ σg acc n v br m,
      solveGroups T fu σg acc n = .ok ((v, br), m) →
      SuppInv T pm σg → SuppDef T F σg →
      suppValD T F σg ≤ v) := by
  intro fu
  induction fu with
  | zero =>
    refine ⟨?_, ?_, ?_⟩
    · intro iset sup n v br m h
      simp [traverse] at h
    · intro sup acts n vb brs m h
      simp [evalActions] at h
    · intro σg acc n v br m h
      simp [solveGroups] at h
  | succ fu ih =>
    obtain ⟨ihV, ihE, ihG⟩ := ih
    refine ⟨?_, ?_, ?_⟩
    · intro iset sup n v br m h hinv hdef
      cases sup with
      | nil => exact absurd h (by simp [traverse])
      | cons s0 tail =>
        unfold traverse at h
        dsimp only at h
        split at h
        · exact absurd h (by simp)
        next values brList n1 hev =>
          split at h
          · exact absurd h (by simp)
          next mx hmx =>
            injection h with h2
            injection h2 with h3 h4
            injection h3 with h5 h6
            subst h5
            obtain ⟨⟨cs0, hs0⟩, hval0⟩ := hinv s0 (List.mem_cons_self s0 tail)
            obtain ⟨st0, hst0, hpm0, hprops, hsum1⟩ :=
              valid_player_facts
                (show Valid T pm (.decision T.player iset cs0) from
                  hs0 ▸ hval0)
            have hitem : ∀ it ∈ (s0 :: tail),
                (∀ apr ∈ pm iset, (play it.1 apr.1).isSome ∧
                  (expValueF T F (playD it.1 apr.1)).isSome) ∧
                evD T F it.1 = ((pm iset).map fun apr =>
                  apr.2 * evD T F (playD it.1 apr.1)).sum := by
              intro it hit
              obtain ⟨⟨csi, hsi⟩, hvali⟩ := hinv it hit
              obtain ⟨sti, hsti, hpmi, _, _⟩ :=
                valid_player_facts
                  (show Valid T pm (.decision T.player iset csi) from
                    hsi ▸ hvali)
              have hdefi := hdef it hit
              rw [hsi] at hdefi ⊢
              obtain ⟨hedi, hevdi⟩ := expValueF_decision_parts hsti hdefi
              rw [hpmi] at hedi hevdi
              obtain ⟨hplays, hsumi⟩ := expDistF_sum hedi
              exact ⟨hplays, by rw [hevdi, hsumi]⟩
            have hswap : itemsValD T F (s0 :: tail)
                = ((pm iset).map fun apr =>
                    apr.2 * actValD T F (s0 :: tail) apr.1).sum := by
              unfold itemsValD actValD
              rw [show (s0 :: tail).map (fun it => it.2 * evD T F it.1)
                  = (s0 :: tail).map (fun it => it.2 * ((pm iset).map fun apr =>
                      apr.2 * evD T F (playD it.1 apr.1)).sum) from
                List.map_congr_left fun it hit => by rw [(hitem it hit).2]]
              exact sum_swap_mul (s0 :: tail) (pm iset)
                fun it a => evD T F (playD it.1 a)
            rw [hswap]
            apply sum_weighted_le
            · intro apr hapr
              exact (hprops apr hapr).1
            · intro apr hapr
              have hmem : apr.1 ∈ actionsOf s0.1 := by
                rw [hs0]
                exact (hprops apr hapr).2
              have hdefs : ∀ it ∈ (s0 :: tail),
                  (expValueF T F (playD it.1 apr.1)).isSome :=
                fun it hit => ((hitem it hit).1 apr hapr).2
              obtain ⟨w, hw, hle⟩ := ihE (s0 :: tail) (actionsOf s0.1) n
                values brList n1 hev (fun it hit => (hinv it hit).2)
                apr.1 hmem hdefs
              have hwmx : w ≤ mx := maxQ_le hmx w hw
              linarith
            · exact hsum1
    · intro sup acts n vb brs m h hitv a ha hdefs
      cases acts with
      | nil => exact absurd ha (List.not_mem_nil a)
      | cons a0 rest =>
        unfold evalActions at h
        split at h
        · exact absurd h (by simp)
        next v1 σa n1 hts =>
          split at h
          · exact absurd h (by simp)
          next v2 br2 n2 hsg =>
            split at h
            · exact absurd h (by simp)
            next vs brs2 n3 hea =>
              injection h with h2
              injection h2 with h3 h4
              injection h3 with h5 h6
              subst h5
              rcases List.mem_cons.mp ha with rfl | ha2
              · have hA := (trace_decomposition T pm F fu).2.2 sup a [] n v1
                  σa n1 hts hitv hdefs rfl
                  (fun ki hki => absurd hki (List.not_mem_nil ki))
                  (fun ki hki => absurd hki (List.not_mem_nil ki))
                obtain ⟨hknda, hdefa, hinva, heq⟩ := hA
                have hB := ihG σa [] n1 v2 br2 n2 hsg hinva hdefa
                refine ⟨v1 + v2, List.mem_cons_self _ _, ?_⟩
                have h0 : suppValD T F ([] : Supports) = 0 := rfl
                rw [h0] at heq
                linarith
              · obtain ⟨w, hw, hle⟩ := ihE sup rest n2 vs brs2 n3 hea hitv
                  a ha2 hdefs
                exact ⟨w, List.mem_cons_of_mem _ hw, hle⟩
    · intro σg acc n v br m h hinv hdef
      cases σg with
      | nil =>
        unfold solveGroups at h
        injection h with h2
        injection h2 with h3 h4
        injection h3 with h5 h6
        subst h5
        exact le_of_eq rfl
      | cons kitems rest =>
        obtain ⟨k, items⟩ := kitems
        unfold solveGroups at h
        split at h
        · exact absurd h (by simp)
        next v1 br1 n1 htv =>
          split at h
          · exact absurd h (by simp)
          next v2 acc2 n2 hsg =>
            injection h with h2
            injection h2 with h3 h4
            injection h3 with h5 h6
            subst h5
            have h1 := ihV k items n v1 br1 n1 htv
              (fun it hit => hinv (k, items) (List.mem_cons_self _ _) it hit)
              (fun it hit => hdef (k, items) (List.mem_cons_self _ _) it hit)
            have h2x := ihG rest (polUpdate acc br1) n1 v2 acc2 n2 hsg
              (fun ki hki => hinv ki (List.mem_cons_of_mem _ hki))
              (fun ki hki => hdef ki (List.mem_cons_of_mem _ hki))
            rw [suppValD_cons]
            linarith

/-- The exact best-response value dominates the expected payoff that the
responding player obtains under the fixed, observation-measurable
profile. -/
theorem bestResponse_ge_profile (T : Ctx) (pm : ℕ → List (ℕ × ℚ))
    (F fu : ℕ) (g : Node) (v : ℚ) (br : Policy) (N : ℕ) (ev : ℚ)
    (h : bestResponse T fu g = .ok (v, br, N))
    (hval : Valid T pm g)
    (hev : expValueF T F g = some ev) :
    ev ≤ v := by
  unfold bestResponse at h
  split at h
  · exact absurd h (by simp)
  next v1 σ n1 htr =>
    split at h
    · exact absurd h (by simp)
    next v2 br2 n2 hsg =>
      injection h with h2
      injection h2 with h3 h4
      subst h3
      have hA := (trace_decomposition T pm F fu).1 g 1 [] 0 v1 σ n1 htr hval
        (by rw [hev]; rfl) rfl
        (fun ki hki => absurd hki (List.not_mem_nil ki))
        (fun ki hki => absurd hki (List.not_mem_nil ki))
      obtain ⟨hknd, hdefσ, hinvσ, heq⟩ := hA
      have hB := (solver_ge_profile T pm F fu).2.2 σ [] n1 v2 br2 n2 hsg
        hinvσ hdefσ
      have hevd : evD T F g = ev := by
        unfold evD
        rw [hev]
        rfl
      have h0 : suppValD T F ([] : Supports) = 0 := rfl
      rw [hevd, h0] at heq
      linarith

/-- C6 counterexample: in the two-player zero-sum game consisting of a
single terminal node with payoffs (1, -1), the exploitability of player 0
under any strategy is -1: negative, although the strategy is trivially an
exact best response to itself in a game with no decisions. -/
theorem exploitability_neg_counterexample :
    ([(1 : ℚ), -1].sum = 0) ∧
    exploitability 2 (.terminal [1, -1]) 0 stEmpty 10 5 = .ok (-1) ∧
    ¬ (0 : ℚ) ≤ -1 :=
  ⟨by norm_num, by with_unfolding_all rfl, by norm_num⟩

/-- C6 amended: for a two-player game, the exploitability of a tested
strategy is bounded below by the expected payoff that the best-responding
player `1 - measuredPlayer` obtains when both seats play the tested
strategy (an observation-measurable, valid profile); the originally
claimed lower bound 0 is recovered exactly when that self-play value is
nonnegative, e.g. in symmetric games, and fails in general. -/
theorem exploitability_ge_selfplay (g : Node) (s : Strat)
    (pm : ℕ → List (ℕ × ℚ)) (mp maxN fu F : ℕ) (x ev : ℚ)
    (hmp : mp = 0 ∨ mp = 1)
    (hrun : exploitability 2 g mp s maxN fu = .ok x)
    (hval : Valid ⟨1 - mp, 2, [s, s], maxN⟩ pm g)
    (hev : expValueF ⟨1 - mp, 2, [s, s], maxN⟩ F g = some ev) :
    ev ≤ x := by
  have hrun2 : ((bestResponse ⟨1 - mp, 2, [s, s], maxN⟩ fu g).mapError
      Err.trav).map (fun r => r.1) = .ok x := by
    rcases hmp with h | h <;> subst h <;> exact hrun
  cases hbr : bestResponse ⟨1 - mp, 2, [s, s], maxN⟩ fu g with
  | error e =>
    rw [hbr] at hrun2
    simp [Except.mapError, Except.map] at hrun2
  | ok r =>
    rw [hbr] at hrun2
    simp only [Except.mapError, Except.map] at hrun2
    injection hrun2 with hx
    obtain ⟨v, br, N⟩ := r
    exact hx ▸ bestResponse_ge_profile _ pm F fu g v br N ev hbr hval hev

/-- C6 amended witness: on matching pennies with the uniform strategy in
both seats, exploitability is 0, the self-play value of the other player
is 0, and the bound 0 ≤ 0 follows from the theorem. -/
theorem exploitability_ge_selfplay_witness :
    exploitability 2 penniesRoot 0 stUnif01 100 100 = .ok 0 ∧
    expValueF ⟨1, 2, [stUnif01, stUnif01], 100⟩ 20 penniesRoot = some 0 ∧
    (0 : ℚ) ≤ 0 :=
  ⟨by with_unfolding_all rfl, by with_unfolding_all rfl,
   exploitability_ge_selfplay penniesRoot stUnif01
     (fun _ => [(0, 1/2), (1, 1/2)]) 0 100 100 20 0 0 (Or.inl rfl)
     (by with_unfolding_all rfl)
     ⟨10, by with_unfolding_all rfl⟩
     (by with_unfolding_all rfl)⟩

end GameGym
